import Mathlib

/-!
Verification development for the loom-transcript-scraper repository.

The Python sources are shallowly embedded as executable Lean definitions:

* `src/extractor/utils.py` — `extract_video_id`, `normalize_whitespace`
* `src/extractor/loom_client.py` — `LoomClient.fetch_transcript_text`,
  `_try_fetch_json_transcript`, `_extract_text_from_json_blob`, `_get`,
  and the tenacity retry decorator.

Strings are modelled as `List Char` (with `String` wrappers at the API
boundary); machine-level concerns (sockets, HTML parsing by BeautifulSoup,
JSON text parsing by `json.loads`) are modelled as abstract inputs where
the claims only depend on the values they produce.
-/

namespace LoomScraper

/-! ### Python string primitives (`str.strip`, `str.split`, `str.join`)

`pyIsSpace` models Python `str.isspace` for the ASCII whitespace characters
(space, tab, newline, carriage return, vertical tab, form feed); the inputs
handled by the scraper are ASCII transcripts and URLs. -/

def pyIsSpace (c : Char) : Bool :=
  c = ' ' || c = '\t' || c = '\n' || c = '\r' || c = Char.ofNat 11 || c = Char.ofNat 12

/-- Left strip, as in Python `str.lstrip`. -/
def stripL (l : List Char) : List Char := l.dropWhile pyIsSpace

/-- Right strip, as in Python `str.rstrip`. -/
def stripR (l : List Char) : List Char := (l.reverse.dropWhile pyIsSpace).reverse

/-- Python `str.strip`. -/
def pyStrip (l : List Char) : List Char := stripR (stripL l)

/-- Python `str.strip` on `String`. -/
def pyStripStr (s : String) : String := String.mk (pyStrip s.data)

/-- Python `text.split("\n")`: always returns at least one (possibly empty) field. -/
def splitNL : List Char → List (List Char)
  | [] => [[]]
  | c :: rest =>
    if c = '\n' then [] :: splitNL rest
    else
      match splitNL rest with
      | [] => [[c]]
      | line :: lines => (c :: line) :: lines

/-- Python `"\n".join(...)`. -/
def joinNL : List (List Char) → List Char
  | [] => []
  | [l] => l
  | l :: ls => l ++ '\n' :: joinNL ls

/-- Python `text.replace("\r\n", "\n")`: leftmost, non-overlapping replacement. -/
def replaceCRLF : List Char → List Char
  | [] => []
  | [c] => [c]
  | c :: d :: rest =>
    if c = '\r' ∧ d = '\n' then '\n' :: replaceCRLF rest
    else c :: replaceCRLF (d :: rest)

/-- Python `text.replace("\r", "\n")` (single-character pattern, hence a map). -/
def replaceCR (l : List Char) : List Char :=
  l.map fun c => if c = '\r' then '\n' else c

/-- Python `re.sub` of three-or-more newlines by two: every maximal run of three or more
newlines becomes exactly two.  `k` counts the newlines already emitted for
the current run; further newlines of a run with `k ≥ 2` are dropped. -/
def collapseGo : Nat → List Char → List Char
  | _, [] => []
  | k, c :: rest =>
    if c = '\n' then
      if 2 ≤ k then collapseGo k rest
      else '\n' :: collapseGo (k + 1) rest
    else c :: collapseGo 0 rest

def collapseNL (l : List Char) : List Char := collapseGo 0 l

/-- Function `normalize_whitespace` from `src/extractor/utils.py`, on character lists:
replace CRLF and CR by LF, strip every line, collapse runs of three or more
newlines to two, strip the result. -/
def normChars (l : List Char) : List Char :=
  pyStrip (collapseNL (joinNL (((splitNL (replaceCR (replaceCRLF l)))).map pyStrip)))

/-- Function `normalize_whitespace` from `src/extractor/utils.py`. -/
def normalize_whitespace (text : String) : String :=
  String.mk (normChars text.data)

/-! ### Basic facts about stripping -/

theorem dropWhile_head_false {p : Char → Bool} {l : List Char} {a : Char}
    (h : (l.dropWhile p).head? = some a) : p a = false := by
  have h2 := List.head?_dropWhile_not p l
  rw [h] at h2
  exact h2

theorem dropWhile_eq_self_of_head {p : Char → Bool} {l : List Char}
    (h : ∀ a, l.head? = some a → p a = false) : l.dropWhile p = l := by
  cases l with
  | nil => rfl
  | cons c rest =>
    have := h c rfl
    simp [List.dropWhile_cons, this]

theorem dropWhile_dropWhile (p : Char → Bool) (l : List Char) :
    (l.dropWhile p).dropWhile p = l.dropWhile p :=
  dropWhile_eq_self_of_head fun _ h => dropWhile_head_false h

theorem dropWhile_fix_head {p : Char → Bool} {l : List Char} {a : Char}
    (hfix : l.dropWhile p = l) (h : l.head? = some a) : p a = false := by
  cases l with
  | nil => simp at h
  | cons c rest =>
    obtain rfl : a = c := by simp at h; exact h.symm
    by_contra hpa
    have hpa' : p a = true := by revert hpa; cases p a <;> simp
    rw [List.dropWhile_cons, hpa'] at hfix
    have hlen := congrArg List.length hfix
    have hle := (List.dropWhile_suffix (l := rest) p).sublist.length_le
    simp at hlen
    omega

theorem stripL_head {l : List Char} {a : Char} (h : (stripL l).head? = some a) :
    pyIsSpace a = false :=
  dropWhile_head_false h

theorem stripL_eq_self_of_head {l : List Char}
    (h : ∀ a, l.head? = some a → pyIsSpace a = false) : stripL l = l :=
  dropWhile_eq_self_of_head h

theorem stripR_last {l : List Char} {a : Char} (h : (stripR l).getLast? = some a) :
    pyIsSpace a = false := by
  unfold stripR at h
  rw [List.getLast?_reverse] at h
  exact dropWhile_head_false h

theorem stripR_eq_self_of_last {l : List Char}
    (h : ∀ a, l.getLast? = some a → pyIsSpace a = false) : stripR l = l := by
  unfold stripR
  rw [dropWhile_eq_self_of_head, List.reverse_reverse]
  intro a ha
  rw [List.head?_reverse] at ha
  exact h a ha

theorem stripR_stripR (l : List Char) : stripR (stripR l) = stripR l := by
  unfold stripR
  rw [List.reverse_reverse, dropWhile_dropWhile]

theorem stripR_fix_last {l : List Char} {a : Char}
    (hfix : stripR l = l) (h : l.getLast? = some a) : pyIsSpace a = false := by
  unfold stripR at hfix
  have h2 : l.reverse.dropWhile pyIsSpace = l.reverse := by
    have h3 := congrArg List.reverse hfix
    rwa [List.reverse_reverse] at h3
  exact dropWhile_fix_head h2 (by rw [List.head?_reverse]; exact h)

theorem stripR_pref (l : List Char) : stripR l <+: l := by
  obtain ⟨t, ht⟩ := List.dropWhile_suffix (l := l.reverse) pyIsSpace
  refine ⟨t.reverse, ?_⟩
  unfold stripR
  rw [← List.reverse_append, ht, List.reverse_reverse]

theorem pyStrip_infixOf (l : List Char) : pyStrip l <:+: l :=
  ((stripR_pref (stripL l)).isInfix).trans (List.dropWhile_suffix _).isInfix

theorem pyStrip_head {l : List Char} {a : Char} (h : (pyStrip l).head? = some a) :
    pyIsSpace a = false := by
  unfold pyStrip at h
  obtain ⟨t, ht⟩ := stripR_pref (stripL l)
  have h2 : (stripL l).head? = some a := by
    rw [← ht, List.head?_append, h]
    rfl
  exact stripL_head h2

theorem pyStrip_last {l : List Char} {a : Char} (h : (pyStrip l).getLast? = some a) :
    pyIsSpace a = false :=
  stripR_last h

theorem pyStrip_idem (l : List Char) : pyStrip (pyStrip l) = pyStrip l := by
  show pyStrip (stripR (stripL l)) = stripR (stripL l)
  unfold pyStrip
  have h1 : stripL (stripR (stripL l)) = stripR (stripL l) := by
    apply stripL_eq_self_of_head
    intro a ha
    exact pyStrip_head (l := l) ha
  rw [h1, stripR_stripR]

theorem pyStripStr_idem (s : String) : pyStripStr (pyStripStr s) = pyStripStr s :=
  congrArg String.mk (pyStrip_idem s.data)

/-! ### Facts about splitting and joining on newlines -/

theorem splitNL_ne_nil (l : List Char) : splitNL l ≠ [] := by
  cases l with
  | nil => simp [splitNL]
  | cons c rest =>
    unfold splitNL
    split
    · simp
    · split <;> simp

theorem splitNL_cons_nl (rest : List Char) : splitNL ('\n' :: rest) = [] :: splitNL rest := by
  simp [splitNL]

theorem splitNL_cons_ne {c : Char} (hc : ¬ c = '\n') (rest : List Char) :
    ∃ t0 ts, splitNL rest = t0 :: ts ∧ splitNL (c :: rest) = (c :: t0) :: ts := by
  cases h : splitNL rest with
  | nil => exact absurd h (splitNL_ne_nil rest)
  | cons t0 ts =>
    refine ⟨t0, ts, rfl, ?_⟩
    simp [splitNL, hc, h]

theorem joinNL_cons_cons (a b : List Char) (ls : List (List Char)) :
    joinNL (a :: b :: ls) = a ++ '\n' :: joinNL (b :: ls) := rfl

theorem joinNL_splitNL (l : List Char) : joinNL (splitNL l) = l := by
  induction l with
  | nil => rfl
  | cons c rest ih =>
    by_cases hc : c = '\n'
    · subst hc
      cases h : splitNL rest with
      | nil => exact absurd h (splitNL_ne_nil rest)
      | cons t0 ts =>
        rw [splitNL_cons_nl, h, joinNL_cons_cons, List.nil_append, ← h, ih]
    · obtain ⟨t0, ts, h1, h2⟩ := splitNL_cons_ne hc rest
      have h3 : joinNL ((c :: t0) :: ts) = c :: joinNL (t0 :: ts) := by
        cases ts with
        | nil => rfl
        | cons b bs => rw [joinNL_cons_cons, joinNL_cons_cons]; simp
      rw [h2, h3, ← h1, ih]

theorem mem_of_mem_splitNL {l s : List Char} {c : Char}
    (hs : s ∈ splitNL l) (hc : c ∈ s) : c ∈ l := by
  induction l generalizing s with
  | nil =>
    simp [splitNL] at hs
    subst hs
    simp at hc
  | cons d rest ih =>
    by_cases hd : d = '\n'
    · subst hd
      rw [splitNL_cons_nl] at hs
      rcases List.mem_cons.mp hs with h | h
      · subst h; simp at hc
      · exact List.mem_cons_of_mem _ (ih h hc)
    · obtain ⟨t0, ts, h1, h2⟩ := splitNL_cons_ne hd rest
      rw [h2] at hs
      rcases List.mem_cons.mp hs with h | h
      · subst h
        rcases List.mem_cons.mp hc with h2 | h2
        · subst h2; exact List.mem_cons_self _ _
        · have h4 : t0 ∈ splitNL rest := by rw [h1]; exact List.mem_cons_self _ _
          exact List.mem_cons_of_mem _ (ih h4 h2)
      · have h4 : s ∈ splitNL rest := by rw [h1]; exact List.mem_cons_of_mem _ h
        exact List.mem_cons_of_mem _ (ih h4 hc)

theorem nl_not_mem_splitNL {l s : List Char} (hs : s ∈ splitNL l) : ¬ '\n' ∈ s := by
  induction l generalizing s with
  | nil =>
    simp [splitNL] at hs
    subst hs
    simp
  | cons d rest ih =>
    by_cases hd : d = '\n'
    · subst hd
      rw [splitNL_cons_nl] at hs
      rcases List.mem_cons.mp hs with h | h
      · subst h; simp
      · exact ih h
    · obtain ⟨t0, ts, h1, h2⟩ := splitNL_cons_ne hd rest
      rw [h2] at hs
      rcases List.mem_cons.mp hs with h | h
      · subst h
        intro hmem
        rcases List.mem_cons.mp hmem with h2 | h2
        · exact hd h2.symm
        · have h4 : t0 ∈ splitNL rest := by rw [h1]; exact List.mem_cons_self _ _
          exact ih h4 h2
      · have h4 : s ∈ splitNL rest := by rw [h1]; exact List.mem_cons_of_mem _ h
        exact ih h4

theorem splitNL_noNL {l : List Char} (h : ¬ '\n' ∈ l) : splitNL l = [l] := by
  induction l with
  | nil => rfl
  | cons c rest ih =>
    have hc : ¬ c = '\n' := fun hc => h (hc ▸ List.mem_cons_self _ _)
    obtain ⟨t0, ts, h1, h2⟩ := splitNL_cons_ne hc rest
    have h3 : splitNL rest = [rest] := ih fun hm => h (List.mem_cons_of_mem _ hm)
    rw [h3] at h1
    cases h1
    rw [h2]

theorem splitNL_append_nl {u t : List Char} (h : ¬ '\n' ∈ u) :
    splitNL (u ++ '\n' :: t) = u :: splitNL t := by
  induction u with
  | nil => simpa using splitNL_cons_nl t
  | cons c cs ih =>
    have hc : ¬ c = '\n' := fun hc => h (hc ▸ List.mem_cons_self _ _)
    obtain ⟨t0, ts, h1, h2⟩ := splitNL_cons_ne hc (cs ++ '\n' :: t)
    have h3 := ih fun hm => h (List.mem_cons_of_mem _ hm)
    rw [h3] at h1
    cases h1
    rw [List.cons_append, h2]

theorem splitNL_joinNL {ls : List (List Char)} (h : ∀ s ∈ ls, ¬ '\n' ∈ s)
    (hne : ls ≠ []) : splitNL (joinNL ls) = ls := by
  induction ls with
  | nil => exact absurd rfl hne
  | cons s ls ih =>
    cases ls with
    | nil => exact splitNL_noNL (h s (List.mem_cons_self _ _))
    | cons b bs =>
      rw [joinNL_cons_cons, splitNL_append_nl (h s (List.mem_cons_self _ _))]
      rw [ih (fun x hx => h x (List.mem_cons_of_mem _ hx)) (by simp)]

theorem mem_joinNL {ls : List (List Char)} {c : Char} (h : c ∈ joinNL ls) :
    (∃ s ∈ ls, c ∈ s) ∨ c = '\n' := by
  induction ls with
  | nil => simp [joinNL] at h
  | cons s ls ih =>
    cases ls with
    | nil => exact Or.inl ⟨s, List.mem_cons_self _ _, h⟩
    | cons b bs =>
      rw [joinNL_cons_cons] at h
      rcases List.mem_append.mp h with h1 | h1
      · exact Or.inl ⟨s, List.mem_cons_self _ _, h1⟩
      · rcases List.mem_cons.mp h1 with h2 | h2
        · exact Or.inr h2
        · rcases ih h2 with ⟨t, ht, hct⟩ | h3
          · exact Or.inl ⟨t, List.mem_cons_of_mem _ ht, hct⟩
          · exact Or.inr h3

theorem head?_joinNL {ls : List (List Char)} {b : Char}
    (h : (joinNL ls).head? = some b) :
    (∃ s ∈ ls, s.head? = some b) ∨ b = '\n' := by
  induction ls with
  | nil => simp [joinNL] at h
  | cons s ls ih =>
    cases ls with
    | nil => exact Or.inl ⟨s, List.mem_cons_self _ _, h⟩
    | cons t ts =>
      rw [joinNL_cons_cons, List.head?_append] at h
      cases hs : s.head? with
      | some a =>
        rw [hs] at h
        exact Or.inl ⟨s, List.mem_cons_self _ _, by rw [hs]; exact h⟩
      | none =>
        rw [hs] at h
        have hb : b = '\n' := by
          simp only [Option.none_or, List.head?_cons] at h
          exact (Option.some.injEq _ _ ▸ h).symm
        exact Or.inr hb

theorem head?_of_single_pref {w : List Char} {b : Char} (h : [b] <+: w) :
    w.head? = some b := by
  obtain ⟨t, ht⟩ := h
  rw [← ht]
  rfl

theorem pair_infix_append {u v : List Char} {a b : Char}
    (h : [a, b] <:+: u ++ v) :
    [a, b] <:+: u ∨ [a, b] <:+: v ∨ (u.getLast? = some a ∧ v.head? = some b) := by
  induction u with
  | nil => exact Or.inr (Or.inl (by simpa using h))
  | cons x u ih =>
    rw [List.cons_append] at h
    rcases List.infix_cons_iff.mp h with h1 | h1
    · rcases List.cons_prefix_cons.mp h1 with ⟨rfl, h2⟩
      have hb : (u ++ v).head? = some b := head?_of_single_pref h2
      cases u with
      | nil =>
        refine Or.inr (Or.inr ⟨rfl, ?_⟩)
        simpa using hb
      | cons y u' =>
        have hy : y = b := by simpa using hb
        subst hy
        exact Or.inl (List.IsPrefix.isInfix ⟨u', rfl⟩)
    · rcases ih h1 with h2 | h2 | h2
      · exact Or.inl (h2.trans (List.suffix_cons x u).isInfix)
      · exact Or.inr (Or.inl h2)
      · obtain ⟨hl, hh⟩ := h2
        cases u with
        | nil => simp at hl
        | cons y u' =>
          exact Or.inr (Or.inr ⟨by rw [List.getLast?_cons_cons]; exact hl, hh⟩)

theorem pair_infix_joinNL {ls : List (List Char)} {a b : Char}
    (h : [a, b] <:+: joinNL ls) :
    (∃ s ∈ ls, [a, b] <:+: s) ∨ (a = '\n' ∧ ∃ s ∈ ls, s.head? = some b) ∨
      (b = '\n' ∧ ∃ s ∈ ls, s.getLast? = some a) ∨ (a = '\n' ∧ b = '\n') := by
  induction ls with
  | nil => simp [joinNL] at h
  | cons s ls ih =>
    cases ls with
    | nil => exact Or.inl ⟨s, List.mem_cons_self _ _, h⟩
    | cons t ts =>
      rw [joinNL_cons_cons] at h
      rcases pair_infix_append h with h1 | h1 | h1
      · exact Or.inl ⟨s, List.mem_cons_self _ _, h1⟩
      · rcases List.infix_cons_iff.mp h1 with h2 | h2
        · rcases List.cons_prefix_cons.mp h2 with ⟨rfl, h3⟩
          rcases head?_joinNL (head?_of_single_pref h3) with ⟨w, hw, hh⟩ | rfl
          · exact Or.inr (Or.inl ⟨rfl, w, List.mem_cons_of_mem _ hw, hh⟩)
          · exact Or.inr (Or.inr (Or.inr ⟨rfl, rfl⟩))
        · rcases ih h2 with ⟨w, hw, hi⟩ | ⟨ha, w, hw, hi⟩ | ⟨hb, w, hw, hi⟩ | h3
          · exact Or.inl ⟨w, List.mem_cons_of_mem _ hw, hi⟩
          · exact Or.inr (Or.inl ⟨ha, w, List.mem_cons_of_mem _ hw, hi⟩)
          · exact Or.inr (Or.inr (Or.inl ⟨hb, w, List.mem_cons_of_mem _ hw, hi⟩))
          · exact Or.inr (Or.inr (Or.inr h3))
      · obtain ⟨hl, hh⟩ := h1
        have hb : b = '\n' := by simpa using hh.symm
        exact Or.inr (Or.inr (Or.inl ⟨hb, s, List.mem_cons_self _ _, hl⟩))

/-! ### Facts about newline-run collapsing -/

theorem mem_collapseGo {l : List Char} {k : Nat} {c : Char}
    (h : c ∈ collapseGo k l) : c ∈ l := by
  induction l generalizing k with
  | nil => simp [collapseGo] at h
  | cons d rest ih =>
    by_cases hd : d = '\n'
    · by_cases hk : 2 ≤ k
      · unfold collapseGo at h
        rw [if_pos hd, if_pos hk] at h
        exact List.mem_cons_of_mem _ (ih h)
      · unfold collapseGo at h
        rw [if_pos hd, if_neg hk] at h
        rcases List.mem_cons.mp h with h1 | h1
        · subst h1; rw [hd]; exact List.mem_cons_self _ _
        · exact List.mem_cons_of_mem _ (ih h1)
    · unfold collapseGo at h
      rw [if_neg hd] at h
      rcases List.mem_cons.mp h with h1 | h1
      · subst h1; exact List.mem_cons_self _ _
      · exact List.mem_cons_of_mem _ (ih h1)

theorem head?_collapseGo_zero (l : List Char) : (collapseGo 0 l).head? = l.head? := by
  cases l with
  | nil => rfl
  | cons d rest =>
    by_cases hd : d = '\n'
    · unfold collapseGo
      rw [if_pos hd, if_neg (by omega)]
      simp [hd]
    · unfold collapseGo
      rw [if_neg hd]
      rfl

theorem head?_collapseGo_ne_nl {k : Nat} (hk : 2 ≤ k) (l : List Char) :
    (collapseGo k l).head? ≠ some '\n' := by
  induction l generalizing k with
  | nil => simp [collapseGo]
  | cons d rest ih =>
    by_cases hd : d = '\n'
    · unfold collapseGo
      rw [if_pos hd, if_pos hk]
      exact ih hk
    · unfold collapseGo
      rw [if_neg hd]
      simp [hd]

theorem collapseGo_head_pair {m : List Char} {k : Nat} {b : Char}
    (hk : 1 ≤ k) (h : (collapseGo k m).head? = some b) (hb : ¬ b = '\n') :
    ['\n', b] <:+: '\n' :: m := by
  induction m generalizing k with
  | nil => simp [collapseGo] at h
  | cons d rest ih =>
    by_cases hd : d = '\n'
    · by_cases h2 : 2 ≤ k
      · unfold collapseGo at h
        rw [if_pos hd, if_pos h2] at h
        subst hd
        exact (ih (by omega) h).trans (List.IsSuffix.isInfix ⟨['\n'], rfl⟩)
      · unfold collapseGo at h
        rw [if_pos hd, if_neg h2] at h
        simp at h
        exact absurd h.symm hb
    · unfold collapseGo at h
      rw [if_neg hd] at h
      have hdb : d = b := by simpa using h
      subst hdb
      exact List.IsPrefix.isInfix ⟨rest, rfl⟩

theorem pair_infix_collapseGo {l : List Char} {k : Nat} {a b : Char}
    (h : [a, b] <:+: collapseGo k l) :
    [a, b] <:+: l ∨ (a = '\n' ∧ b = '\n') := by
  induction l generalizing k with
  | nil => simp [collapseGo] at h
  | cons d rest ih =>
    by_cases hd : d = '\n'
    · by_cases h2 : 2 ≤ k
      · unfold collapseGo at h
        rw [if_pos hd, if_pos h2] at h
        rcases ih h with h3 | h3
        · exact Or.inl (h3.trans (List.IsSuffix.isInfix ⟨[d], rfl⟩))
        · exact Or.inr h3
      · unfold collapseGo at h
        rw [if_pos hd, if_neg h2] at h
        rcases List.infix_cons_iff.mp h with h3 | h3
        · rcases List.cons_prefix_cons.mp h3 with ⟨rfl, h4⟩
          by_cases hb : b = '\n'
          · exact Or.inr ⟨rfl, hb⟩
          · have h5 := collapseGo_head_pair (k := k + 1) (by omega)
              (head?_of_single_pref h4) hb
            subst hd
            exact Or.inl h5
        · rcases ih h3 with h4 | h4
          · exact Or.inl (h4.trans (List.IsSuffix.isInfix ⟨[d], rfl⟩))
          · exact Or.inr h4
    · unfold collapseGo at h
      rw [if_neg hd] at h
      rcases List.infix_cons_iff.mp h with h3 | h3
      · rcases List.cons_prefix_cons.mp h3 with ⟨rfl, h4⟩
        have hhead := head?_of_single_pref h4
        rw [head?_collapseGo_zero] at hhead
        cases rest with
        | nil => simp at hhead
        | cons e rest' =>
          have heb : e = b := by simpa using hhead
          subst heb
          exact Or.inl (List.IsPrefix.isInfix ⟨rest', rfl⟩)
      · rcases ih h3 with h4 | h4
        · exact Or.inl (h4.trans (List.IsSuffix.isInfix ⟨[d], rfl⟩))
        · exact Or.inr h4

theorem collapseGo_no_nnn (l : List Char) (k : Nat) :
    ¬ (['\n', '\n', '\n'] <:+: collapseGo k l) := by
  induction l generalizing k with
  | nil => simp [collapseGo]
  | cons d rest ih =>
    intro h
    by_cases hd : d = '\n'
    · by_cases h2 : 2 ≤ k
      · unfold collapseGo at h
        rw [if_pos hd, if_pos h2] at h
        exact ih k h
      · unfold collapseGo at h
        rw [if_pos hd, if_neg h2] at h
        rcases List.infix_cons_iff.mp h with h3 | h3
        · rcases List.cons_prefix_cons.mp h3 with ⟨-, h4⟩
          by_cases h5 : 2 ≤ k + 1
          · obtain ⟨t, ht⟩ := h4
            exact head?_collapseGo_ne_nl h5 rest (by rw [← ht]; rfl)
          · have hk0 : k = 0 := by omega
            subst hk0
            cases rest with
            | nil => simp [collapseGo] at h4
            | cons e rest' =>
              by_cases he : e = '\n'
              · unfold collapseGo at h4
                rw [if_pos he, if_neg (by omega)] at h4
                rcases List.cons_prefix_cons.mp h4 with ⟨-, h6⟩
                obtain ⟨t, ht⟩ := h6
                exact head?_collapseGo_ne_nl (k := 0 + 1 + 1) (by omega) rest'
                  (by rw [← ht]; rfl)
              · unfold collapseGo at h4
                rw [if_neg he] at h4
                rcases List.cons_prefix_cons.mp h4 with ⟨h7, -⟩
                exact he h7.symm
        · exact ih (k + 1) h3
    · unfold collapseGo at h
      rw [if_neg hd] at h
      rcases List.infix_cons_iff.mp h with h3 | h3
      · rcases List.cons_prefix_cons.mp h3 with ⟨h4, -⟩
        exact hd h4.symm
      · exact ih 0 h3

/-- Length of the leading newline run. -/
def leadNL (l : List Char) : Nat := (l.takeWhile (fun c => c = '\n')).length

theorem leadNL_cons (c : Char) (rest : List Char) :
    leadNL (c :: rest) = if c = '\n' then leadNL rest + 1 else 0 := by
  unfold leadNL
  rw [List.takeWhile_cons]
  by_cases hc : c = '\n'
  · simp [hc]
  · simp [hc]

theorem nnn_pref_of_leadNL {l : List Char} (h : 3 ≤ leadNL l) :
    ['\n', '\n', '\n'] <+: l := by
  cases l with
  | nil => simp [leadNL] at h
  | cons a l1 =>
    rw [leadNL_cons] at h
    by_cases ha : a = '\n'
    · rw [if_pos ha] at h
      cases l1 with
      | nil => simp [leadNL] at h
      | cons b l2 =>
        rw [leadNL_cons] at h
        by_cases hb : b = '\n'
        · rw [if_pos hb] at h
          cases l2 with
          | nil => simp [leadNL] at h
          | cons c l3 =>
            rw [leadNL_cons] at h
            by_cases hc : c = '\n'
            · subst ha
              subst hb
              subst hc
              exact ⟨l3, rfl⟩
            · rw [if_neg hc] at h; omega
        · rw [if_neg hb] at h; omega
    · rw [if_neg ha] at h; omega

theorem collapseGo_eq_self {l : List Char} {k : Nat}
    (hlead : k + leadNL l ≤ 2) (hnnn : ¬ (['\n', '\n', '\n'] <:+: l)) :
    collapseGo k l = l := by
  induction l generalizing k with
  | nil => rfl
  | cons d rest ih =>
    have htail : ¬ (['\n', '\n', '\n'] <:+: rest) :=
      fun hin => hnnn (hin.trans (List.IsSuffix.isInfix ⟨[d], rfl⟩))
    by_cases hd : d = '\n'
    · have hlead2 : leadNL (d :: rest) = leadNL rest + 1 := by
        rw [leadNL_cons, if_pos hd]
      rw [hlead2] at hlead
      unfold collapseGo
      rw [if_pos hd, if_neg (by omega)]
      rw [ih (k := k + 1) (by omega) htail, hd]
    · have hlead0 : leadNL rest ≤ 2 := by
        by_contra hgt
        exact hnnn ((nnn_pref_of_leadNL (by omega)).isInfix.trans
          (List.IsSuffix.isInfix ⟨[d], rfl⟩))
      unfold collapseGo
      rw [if_neg hd, ih (k := 0) (by omega) htail]

theorem collapseNL_no_nnn (l : List Char) : ¬ (['\n', '\n', '\n'] <:+: collapseNL l) :=
  collapseGo_no_nnn l 0

theorem collapseNL_eq_self {l : List Char} (h : ¬ (['\n', '\n', '\n'] <:+: l)) :
    collapseNL l = l := by
  apply collapseGo_eq_self _ h
  by_contra hgt
  exact h (nnn_pref_of_leadNL (by omega)).isInfix

/-! ### Conditions under which every split line is already stripped -/

/-- Whitespace other than a newline (line-interior whitespace). -/
def wsp (c : Char) : Bool := pyIsSpace c && !(c = '\n')

/-- No line-interior whitespace character is adjacent to a newline. -/
def condPairs (y : List Char) : Prop :=
  ∀ w, wsp w = true → ¬ (['\n', w] <:+: y) ∧ ¬ ([w, '\n'] <:+: y)

def condHead (y : List Char) : Prop := ∀ w, wsp w = true → y.head? ≠ some w

def condLast (y : List Char) : Prop := ∀ w, wsp w = true → y.getLast? ≠ some w

theorem wsp_false_of {a : Char} (h : wsp a = false) (hne : ¬ a = '\n') :
    pyIsSpace a = false := by
  unfold wsp at h
  simpa [hne] using h

theorem mem_of_headOpt {l : List Char} {a : Char} (h : l.head? = some a) : a ∈ l := by
  obtain ⟨ys, rfl⟩ := List.head?_eq_some_iff.mp h
  exact List.mem_cons_self _ _

theorem bridge_aux (y : List Char) (hp : condPairs y) (hl : condLast y) :
    ∃ s0 ls0, splitNL y = s0 :: ls0 ∧ stripR s0 = s0 ∧ ∀ s ∈ ls0, pyStrip s = s := by
  induction y with
  | nil => exact ⟨[], [], rfl, rfl, by simp⟩
  | cons c rest ih =>
    have hp' : condPairs rest := fun w hw =>
      ⟨fun hin => (hp w hw).1 (hin.trans (List.IsSuffix.isInfix ⟨[c], rfl⟩)),
       fun hin => (hp w hw).2 (hin.trans (List.IsSuffix.isInfix ⟨[c], rfl⟩))⟩
    have hl' : condLast rest := by
      intro w hw hlast
      cases rest with
      | nil => simp at hlast
      | cons d r => exact hl w hw (by rw [List.getLast?_cons_cons]; exact hlast)
    obtain ⟨t0, ts0, h1, h2, h3⟩ := ih hp' hl'
    by_cases hc : c = '\n'
    · subst hc
      refine ⟨[], splitNL rest, splitNL_cons_nl rest, rfl, ?_⟩
      intro s hs
      rw [h1] at hs
      rcases List.mem_cons.mp hs with rfl | hs2
      · have hstL : stripL s = s := by
          apply stripL_eq_self_of_head
          intro a ha
          have hr : rest.head? = some a := by
            cases rest with
            | nil =>
              have h1' : ([[]] : List (List Char)) = s :: ts0 := h1
              injection h1' with e1 e2
              rw [← e1] at ha
              simp at ha
            | cons d r =>
              by_cases hd : d = '\n'
              · subst hd
                rw [splitNL_cons_nl] at h1
                injection h1 with e1 e2
                rw [← e1] at ha
                simp at ha
              · obtain ⟨u0, us, hu1, hu2⟩ := splitNL_cons_ne hd r
                rw [hu2] at h1
                injection h1 with e1 e2
                rw [← e1] at ha
                simp at ha
                simp [ha]
          have hin : ['\n', a] <:+: '\n' :: rest := by
            obtain ⟨ys, hys⟩ := List.head?_eq_some_iff.mp hr
            rw [hys]
            exact List.IsPrefix.isInfix ⟨ys, rfl⟩
          have hmem : a ∈ s := mem_of_headOpt ha
          have hsplit : s ∈ splitNL rest := by
            rw [h1]
            exact List.mem_cons_self _ _
          have hanl : ¬ a = '\n' := fun hla => nl_not_mem_splitNL hsplit (hla ▸ hmem)
          by_cases hw : wsp a = true
          · exact absurd hin ((hp a hw).1)
          · exact wsp_false_of (by revert hw; cases wsp a <;> simp) hanl
        unfold pyStrip
        rw [hstL, h2]
      · exact h3 s hs2
    · obtain ⟨u0, us, hu1, hu2⟩ := splitNL_cons_ne hc rest
      rw [h1] at hu1
      injection hu1 with e1 e2
      subst e1
      subst e2
      refine ⟨c :: t0, ts0, hu2, ?_, h3⟩
      apply stripR_eq_self_of_last
      intro a ha
      cases t0 with
      | nil =>
        have hac : a = c := by simpa using ha.symm
        subst hac
        cases rest with
        | nil =>
          by_cases hw : wsp a = true
          · exact absurd (by simp : ([a] : List Char).getLast? = some a) (hl a hw)
          · exact wsp_false_of (by revert hw; cases wsp a <;> simp) hc
        | cons d r =>
          have hd : d = '\n' := by
            by_contra hd
            obtain ⟨v0, vs, hv1, hv2⟩ := splitNL_cons_ne hd r
            rw [hv2] at h1
            injection h1 with e1 e2
            exact List.noConfusion e1.symm
          subst hd
          have hin : [a, '\n'] <:+: a :: '\n' :: r := List.IsPrefix.isInfix ⟨r, rfl⟩
          by_cases hw : wsp a = true
          · exact absurd hin ((hp a hw).2)
          · exact wsp_false_of (by revert hw; cases wsp a <;> simp) hc
      | cons x xs =>
        have ha' : (x :: xs).getLast? = some a := by
          rw [← List.getLast?_cons_cons (a := c)]
          exact ha
        exact stripR_fix_last h2 ha'

theorem bridge (y : List Char) (hp : condPairs y) (hl : condLast y) (hh : condHead y) :
    ∀ s ∈ splitNL y, pyStrip s = s := by
  obtain ⟨s0, ls0, h1, h2, h3⟩ := bridge_aux y hp hl
  intro s hs
  rw [h1] at hs
  rcases List.mem_cons.mp hs with rfl | hs2
  · have hstL : stripL s = s := by
      apply stripL_eq_self_of_head
      intro a ha
      have hy : y.head? = some a := by
        cases y with
        | nil =>
          have h1' : ([[]] : List (List Char)) = s :: ls0 := h1
          injection h1' with e1 e2
          rw [← e1] at ha
          simp at ha
        | cons c rest =>
          by_cases hc : c = '\n'
          · subst hc
            rw [splitNL_cons_nl] at h1
            injection h1 with e1 e2
            rw [← e1] at ha
            simp at ha
          · obtain ⟨t0, ts, hu1, hu2⟩ := splitNL_cons_ne hc rest
            rw [hu2] at h1
            injection h1 with e1 e2
            rw [← e1] at ha
            simp at ha
            simp [ha]
      have hmem : a ∈ s := mem_of_headOpt ha
      have hs0 : s ∈ splitNL y := by
        rw [h1]
        exact List.mem_cons_self _ _
      have hanl : ¬ a = '\n' := fun hla => nl_not_mem_splitNL hs0 (hla ▸ hmem)
      by_cases hw : wsp a = true
      · exact absurd hy (hh a hw)
      · exact wsp_false_of (by revert hw; cases wsp a <;> simp) hanl
    unfold pyStrip
    rw [hstL, h2]
  · exact h3 s hs2

/-! ### Invariants of the normalized output -/

theorem replaceCR_no_cr (l : List Char) : ¬ '\r' ∈ replaceCR l := by
  intro h
  unfold replaceCR at h
  rcases List.mem_map.mp h with ⟨a, ha, hfa⟩
  by_cases h1 : a = '\r'
  · rw [if_pos h1] at hfa
    exact absurd hfa (by decide)
  · rw [if_neg h1] at hfa
    exact h1 hfa

theorem normChars_no_cr (l : List Char) : ¬ '\r' ∈ normChars l := by
  intro h
  unfold normChars at h
  have h1 := (pyStrip_infixOf _).subset h
  have h2 := mem_collapseGo h1
  rcases mem_joinNL h2 with ⟨s, hs, hcs⟩ | hnl
  · rcases List.mem_map.mp hs with ⟨s', hs', rfl⟩
    have h3 := (pyStrip_infixOf s').subset hcs
    have h4 := mem_of_mem_splitNL hs' h3
    exact replaceCR_no_cr _ h4
  · exact absurd hnl (by decide)

theorem wsp_space_true {w : Char} (hw : wsp w = true) : pyIsSpace w = true := by
  unfold wsp at hw
  exact (Bool.and_eq_true _ _ |>.mp hw).1

theorem wsp_ne_nl {w : Char} (hw : wsp w = true) : ¬ w = '\n' := by
  intro he
  rw [he] at hw
  exact absurd hw (by decide)

theorem normChars_condPairs (l : List Char) : condPairs (normChars l) := by
  intro w hw
  have hwsp := wsp_space_true hw
  have hwnl := wsp_ne_nl hw
  constructor
  · intro hin
    unfold normChars at hin
    have h1 := hin.trans (pyStrip_infixOf _)
    rcases pair_infix_collapseGo h1 with h2 | ⟨-, h3⟩
    · rcases pair_infix_joinNL h2 with ⟨s, hs, hinf⟩ | ⟨-, s, hs, hh⟩ | ⟨hb, -⟩ | ⟨-, hb⟩
      · rcases List.mem_map.mp hs with ⟨s', hs', rfl⟩
        have hmem : '\n' ∈ pyStrip s' := hinf.subset (List.mem_cons_self _ _)
        exact nl_not_mem_splitNL hs' ((pyStrip_infixOf s').subset hmem)
      · rcases List.mem_map.mp hs with ⟨s', hs', rfl⟩
        have hsp := pyStrip_head hh
        rw [hwsp] at hsp
        exact Bool.noConfusion hsp
      · exact hwnl hb
      · exact hwnl hb
    · exact hwnl h3
  · intro hin
    unfold normChars at hin
    have h1 := hin.trans (pyStrip_infixOf _)
    rcases pair_infix_collapseGo h1 with h2 | ⟨h3, -⟩
    · rcases pair_infix_joinNL h2 with ⟨s, hs, hinf⟩ | ⟨ha, -⟩ | ⟨-, s, hs, hh⟩ | ⟨ha, -⟩
      · rcases List.mem_map.mp hs with ⟨s', hs', rfl⟩
        have hmem : '\n' ∈ pyStrip s' := hinf.subset (List.mem_cons_of_mem _ (List.mem_cons_self _ _))
        exact nl_not_mem_splitNL hs' ((pyStrip_infixOf s').subset hmem)
      · exact hwnl ha
      · rcases List.mem_map.mp hs with ⟨s', hs', rfl⟩
        have hsp := pyStrip_last hh
        rw [hwsp] at hsp
        exact Bool.noConfusion hsp
      · exact hwnl ha
    · exact hwnl h3

theorem normChars_condHead (l : List Char) : condHead (normChars l) := by
  intro w hw hhead
  unfold normChars at hhead
  have hsp := pyStrip_head hhead
  rw [wsp_space_true hw] at hsp
  exact Bool.noConfusion hsp

theorem normChars_condLast (l : List Char) : condLast (normChars l) := by
  intro w hw hlast
  unfold normChars at hlast
  have hsp := pyStrip_last hlast
  rw [wsp_space_true hw] at hsp
  exact Bool.noConfusion hsp

theorem normChars_no_nnn (l : List Char) : ¬ (['\n', '\n', '\n'] <:+: normChars l) := by
  intro hin
  unfold normChars at hin
  exact collapseNL_no_nnn _ (hin.trans (pyStrip_infixOf _))

/-! ### Idempotence of normalization -/

theorem replaceCRLF_eq_self {l : List Char} (h : ¬ '\r' ∈ l) : replaceCRLF l = l := by
  induction l with
  | nil => rfl
  | cons c rest ih =>
    have hc : ¬ c = '\r' := fun e => h (e ▸ List.mem_cons_self _ _)
    cases rest with
    | nil => rfl
    | cons d r =>
      unfold replaceCRLF
      rw [if_neg (fun hand => hc hand.1)]
      rw [ih (fun hm => h (List.mem_cons_of_mem _ hm))]

theorem replaceCR_eq_self {l : List Char} (h : ¬ '\r' ∈ l) : replaceCR l = l := by
  unfold replaceCR
  have h2 : ∀ a ∈ l, (if a = '\r' then '\n' else a) = id a := by
    intro a ha
    rw [if_neg (fun e : a = '\r' => h (e ▸ ha))]
    rfl
  rw [List.map_congr_left h2, List.map_id]

theorem normChars_idem (l : List Char) : normChars (normChars l) = normChars l := by
  have hnocr := normChars_no_cr l
  have e1 : replaceCRLF (normChars l) = normChars l := replaceCRLF_eq_self hnocr
  have e2 : replaceCR (normChars l) = normChars l := replaceCR_eq_self hnocr
  have hb := bridge (normChars l) (normChars_condPairs l) (normChars_condLast l)
    (normChars_condHead l)
  have e3 : (splitNL (normChars l)).map pyStrip = splitNL (normChars l) := by
    have h2 : ∀ s ∈ splitNL (normChars l), pyStrip s = id s := fun s hs => hb s hs
    rw [List.map_congr_left h2, List.map_id]
  have e4 : joinNL (splitNL (normChars l)) = normChars l := joinNL_splitNL _
  have e5 : collapseNL (normChars l) = normChars l := collapseNL_eq_self (normChars_no_nnn l)
  have e6 : pyStrip (normChars l) = normChars l := by
    unfold normChars
    exact pyStrip_idem _
  show pyStrip (collapseNL (joinNL ((splitNL (replaceCR (replaceCRLF (normChars l)))).map pyStrip))) = normChars l
  rw [e1, e2, e3, e4, e5, e6]

/-- Boolean test for a triple-newline run. -/
def hasTripleNL : List Char → Bool
  | [] => false
  | [_] => false
  | [_, _] => false
  | c :: d :: e :: rest => (c = '\n' && d = '\n' && e = '\n') || hasTripleNL (d :: e :: rest)

theorem hasTripleNL_eq_false {l : List Char} (h : ¬ (['\n', '\n', '\n'] <:+: l)) :
    hasTripleNL l = false := by
  induction l with
  | nil => rfl
  | cons c rest ih =>
    cases rest with
    | nil => rfl
    | cons d rest2 =>
      cases rest2 with
      | nil => rfl
      | cons e rest3 =>
        have h2 : ((c = '\n' && d = '\n') && (e = '\n' : Bool)) = false := by
          by_cases hc : c = '\n'
          · by_cases hd : d = '\n'
            · by_cases he : e = '\n'
              · subst hc; subst hd; subst he
                exact absurd (List.IsPrefix.isInfix ⟨rest3, rfl⟩) h
              · simp [he]
            · simp [hd]
          · simp [hc]
        unfold hasTripleNL
        rw [h2, Bool.false_or]
        exact ih (fun hin => h (hin.trans (List.IsSuffix.isInfix ⟨[c], rfl⟩)))

/-- Boolean test for a carriage return. -/
def containsCR (l : List Char) : Bool := l.any (fun c => c = '\r')

theorem containsCR_eq_false {l : List Char} (h : ¬ '\r' ∈ l) : containsCR l = false := by
  unfold containsCR
  rw [List.any_eq_false]
  intro a ha
  simp only [decide_eq_true_eq]
  exact fun e => h (e ▸ ha)

/-! ### Claim theorems for the Transcript Normalizer -/

/-- C6: the normalizer is a pure total function implementing exactly: convert CRLF
and lone CR to LF, strip leading/trailing whitespace from every line, collapse runs
of three or more newlines to exactly two, then strip the whole result (this is the
definition of `normalize_whitespace`); empty input yields empty output and
`normalize_whitespace "a\r\n\r\n\r\nb" = "a\n\nb"`; moreover every output is free
of carriage returns and of triple-newline runs, has every line stripped, and is
itself stripped. -/
theorem normalize_whitespace_spec :
    normalize_whitespace "" = "" ∧
    normalize_whitespace "a\r\n\r\n\r\nb" = "a\n\nb" ∧
    ∀ x : String,
      containsCR (normalize_whitespace x).data = false ∧
      hasTripleNL (normalize_whitespace x).data = false ∧
      (splitNL (normalize_whitespace x).data).map pyStrip =
        splitNL (normalize_whitespace x).data ∧
      pyStripStr (normalize_whitespace x) = normalize_whitespace x := by
  refine ⟨by decide, by decide, fun x => ⟨?_, ?_, ?_, ?_⟩⟩
  · exact containsCR_eq_false (normChars_no_cr x.data)
  · exact hasTripleNL_eq_false (normChars_no_nnn x.data)
  · show (splitNL (normChars x.data)).map pyStrip = splitNL (normChars x.data)
    have h2 : ∀ s ∈ splitNL (normChars x.data), pyStrip s = id s :=
      fun s hs => bridge _ (normChars_condPairs x.data) (normChars_condLast x.data)
        (normChars_condHead x.data) s hs
    rw [List.map_congr_left h2, List.map_id]
  · show String.mk (pyStrip (normChars x.data)) = String.mk (normChars x.data)
    exact congrArg String.mk (by unfold normChars; exact pyStrip_idem _)

/-- C7: `normalize_whitespace` is idempotent: for every string `x`,
`normalize_whitespace (normalize_whitespace x) = normalize_whitespace x`. -/
theorem normalize_whitespace_idem (x : String) :
    normalize_whitespace (normalize_whitespace x) = normalize_whitespace x :=
  congrArg String.mk (normChars_idem x.data)

/-! ### Identifier Extractor (`extract_video_id` in `src/extractor/utils.py`)

The two regular expressions are embedded as explicit matchers.  Literal parts
are matched case-insensitively via `Char.toLower` on both sides, the hex class
is `[a-fA-F0-9]`, and the word-boundary test uses ASCII word characters; this
models the `re.IGNORECASE` patterns on the ASCII inputs the scraper handles.
The optional groups `(?:https?://)?` and `(?:www\.)?` need no backtracking:
their first characters are pairwise distinct from `loom.com`, so committing to
a successful literal match is equivalent to the regex search. -/

/-- Consume a literal pattern case-insensitively, returning the rest. -/
def matchLitCI : List Char → List Char → Option (List Char)
  | [], l => some l
  | _ :: _, [] => none
  | p :: ps, c :: cs => if c.toLower = p.toLower then matchLitCI ps cs else none

/-- Character class `[a-f0-9]` under `re.IGNORECASE`. -/
def isHexCI (c : Char) : Bool :=
  ('a' ≤ c && c ≤ 'f') || ('A' ≤ c && c ≤ 'F') || ('0' ≤ c && c ≤ '9')

/-- Capture `([a-f0-9]{32})`: exactly 32 hex characters, greedily. -/
def takeHex32 (l : List Char) : Option (List Char) :=
  if (l.take 32).length = 32 && (l.take 32).all isHexCI then some (l.take 32) else none

/-- Optional scheme `(?:https?://)?`. -/
def schemeStrip (l : List Char) : List Char :=
  match matchLitCI "https://".data l with
  | some r => r
  | none =>
    match matchLitCI "http://".data l with
    | some r => r
    | none => l

/-- Optional `(?:www\.)?`. -/
def wwwStrip (l : List Char) : List Char :=
  match matchLitCI "www.".data l with
  | some r => r
  | none => l

/-- Alternation `(?:share|embed|recording)/`. -/
def matchMarker (l : List Char) : Option (List Char) :=
  match matchLitCI "share/".data l with
  | some r => some r
  | none =>
    match matchLitCI "embed/".data l with
    | some r => some r
    | none => matchLitCI "recording/".data l

/-- Match of `_URL_ID_RE` anchored at the head of `l`, returning the captured group. -/
def urlMatchAt (l : List Char) : Option (List Char) :=
  match matchLitCI "loom.com/".data (wwwStrip (schemeStrip l)) with
  | none => none
  | some l3 =>
    match matchMarker l3 with
    | none => none
    | some l4 => takeHex32 l4

/-- Search (leftmost match) of `_URL_ID_RE`; `urlMatchAt [] = none`, so the
empty suffix never matches and the search may stop at the empty list. -/
def urlSearch : List Char → Option (List Char)
  | [] => none
  | c :: rest =>
    match urlMatchAt (c :: rest) with
    | some t => some t
    | none => urlSearch rest

/-- ASCII model of the regex word character class for the boundary test. -/
def isWordChar (c : Char) : Bool := c.isAlphanum || c = '_'

/-- Match of the hex token and its trailing word boundary at the head of `l`. -/
def rawMatchCore (l : List Char) : Option (List Char) :=
  match takeHex32 l with
  | none => none
  | some t =>
    match (l.drop 32).head? with
    | none => some t
    | some c => if isWordChar c then none else some t

/-- Match of `_LOOM_ID_RE` (with both word boundaries) anchored at the head of `l`;
`prev` is the character just before this position, if any. -/
def rawMatchAt (prev : Option Char) (l : List Char) : Option (List Char) :=
  match prev with
  | some p => if isWordChar p then none else rawMatchCore l
  | none => rawMatchCore l

/-- Search (leftmost match) of `_LOOM_ID_RE`; the empty suffix never matches
(`takeHex32 [] = none`), so the search may stop at the empty list. -/
def rawSearch : Option Char → List Char → Option (List Char)
  | _, [] => none
  | prev, c :: rest =>
    match rawMatchAt prev (c :: rest) with
    | some t => some t
    | none => rawSearch (some c) rest

/-- Function `extract_video_id` from `src/extractor/utils.py`. -/
def extract_video_id (item : String) : Option String :=
  if item = "" then none
  else
    match urlSearch (pyStrip item.data) with
    | some t => some (String.mk (t.map Char.toLower))
    | none =>
      match rawSearch none (pyStrip item.data) with
      | some t => some (String.mk (t.map Char.toLower))
      | none => none

/-- Previous character seen from position `i` of `l`, where `prev` precedes `l`. -/
def prevAt (prev : Option Char) (l : List Char) (i : Nat) : Option Char :=
  match i with
  | 0 => prev
  | j + 1 => l[j]?

theorem prevAt_cons (prev : Option Char) (c : Char) (rest : List Char) (j : Nat) :
    prevAt prev (c :: rest) (j + 1) = prevAt (some c) rest j := by
  cases j with
  | zero => simp [prevAt]
  | succ j' => simp [prevAt]

theorem rawMatchAt_nil (prev : Option Char) : rawMatchAt prev [] = none := by
  cases prev with
  | none => rfl
  | some p =>
    show (if isWordChar p then none else rawMatchCore []) = none
    by_cases hp : isWordChar p
    · rw [if_pos hp]
    · rw [if_neg hp]; rfl

theorem urlSearch_none_iff {l : List Char} :
    urlSearch l = none ↔ ∀ i, urlMatchAt (l.drop i) = none := by
  induction l with
  | nil =>
    constructor
    · intro _ i
      rw [List.drop_nil]
      rfl
    · intro _
      rfl
  | cons c rest ih =>
    constructor
    · intro h i
      cases hm : urlMatchAt (c :: rest) with
      | some t =>
        unfold urlSearch at h
        rw [hm] at h
        exact Option.noConfusion h
      | none =>
        have h2 : urlSearch rest = none := by
          unfold urlSearch at h
          rw [hm] at h
          exact h
        cases i with
        | zero => rw [List.drop_zero]; exact hm
        | succ j => rw [List.drop_succ_cons]; exact (ih.mp h2) j
    · intro h
      have h0 : urlMatchAt (c :: rest) = none := by
        have h1 := h 0
        rwa [List.drop_zero] at h1
      unfold urlSearch
      rw [h0]
      exact ih.mpr fun j => by
        have h1 := h (j + 1)
        rwa [List.drop_succ_cons] at h1

theorem urlSearch_some {l t : List Char} (h : urlSearch l = some t) :
    ∃ i, urlMatchAt (l.drop i) = some t := by
  induction l with
  | nil => exact Option.noConfusion h
  | cons c rest ih =>
    cases hm : urlMatchAt (c :: rest) with
    | some t' =>
      unfold urlSearch at h
      rw [hm] at h
      cases h
      exact ⟨0, by rw [List.drop_zero]; exact hm⟩
    | none =>
      have h2 : urlSearch rest = some t := by
        unfold urlSearch at h
        rw [hm] at h
        exact h
      obtain ⟨i, hi⟩ := ih h2
      exact ⟨i + 1, by rw [List.drop_succ_cons]; exact hi⟩

theorem rawSearch_none_iff {prev : Option Char} {l : List Char} :
    rawSearch prev l = none ↔ ∀ i, rawMatchAt (prevAt prev l i) (l.drop i) = none := by
  induction l generalizing prev with
  | nil =>
    constructor
    · intro _ i
      rw [List.drop_nil]
      exact rawMatchAt_nil _
    · intro _
      rfl
  | cons c rest ih =>
    constructor
    · intro h i
      cases hm : rawMatchAt prev (c :: rest) with
      | some t =>
        unfold rawSearch at h
        rw [hm] at h
        exact Option.noConfusion h
      | none =>
        have h2 : rawSearch (some c) rest = none := by
          unfold rawSearch at h
          rw [hm] at h
          exact h
        cases i with
        | zero => rw [List.drop_zero]; exact hm
        | succ j =>
          rw [List.drop_succ_cons, prevAt_cons]
          exact (ih.mp h2) j
    · intro h
      have h0 : rawMatchAt prev (c :: rest) = none := by
        have h1 := h 0
        rwa [List.drop_zero] at h1
      unfold rawSearch
      rw [h0]
      exact ih.mpr fun j => by
        have h1 := h (j + 1)
        rwa [List.drop_succ_cons, prevAt_cons] at h1

theorem rawSearch_some {prev : Option Char} {l t : List Char}
    (h : rawSearch prev l = some t) :
    ∃ i, rawMatchAt (prevAt prev l i) (l.drop i) = some t := by
  induction l generalizing prev with
  | nil => exact Option.noConfusion h
  | cons c rest ih =>
    cases hm : rawMatchAt prev (c :: rest) with
    | some t' =>
      unfold rawSearch at h
      rw [hm] at h
      cases h
      exact ⟨0, by rw [List.drop_zero]; exact hm⟩
    | none =>
      have h2 : rawSearch (some c) rest = some t := by
        unfold rawSearch at h
        rw [hm] at h
        exact h
      obtain ⟨i, hi⟩ := ih h2
      exact ⟨i + 1, by rw [List.drop_succ_cons, prevAt_cons]; exact hi⟩

theorem takeHex32_some {l t : List Char} (h : takeHex32 l = some t) :
    t.length = 32 ∧ t.all isHexCI = true := by
  unfold takeHex32 at h
  split at h
  case isTrue hcond =>
    cases h
    exact ⟨by simpa using (Bool.and_eq_true _ _ |>.mp hcond).1,
      (Bool.and_eq_true _ _ |>.mp hcond).2⟩
  case isFalse => exact Option.noConfusion h

theorem urlMatchAt_some {l t : List Char} (h : urlMatchAt l = some t) :
    t.length = 32 ∧ t.all isHexCI = true := by
  unfold urlMatchAt at h
  split at h
  · exact Option.noConfusion h
  · split at h
    · exact Option.noConfusion h
    · exact takeHex32_some h

theorem rawMatchCore_some {l t : List Char} (h : rawMatchCore l = some t) :
    t.length = 32 ∧ t.all isHexCI = true := by
  unfold rawMatchCore at h
  split at h
  · exact Option.noConfusion h
  · rename_i t' h1
    split at h
    · cases h
      exact takeHex32_some h1
    · split at h
      · exact Option.noConfusion h
      · cases h
        exact takeHex32_some h1

theorem rawMatchAt_some {prev : Option Char} {l t : List Char}
    (h : rawMatchAt prev l = some t) : t.length = 32 ∧ t.all isHexCI = true := by
  unfold rawMatchAt at h
  split at h
  · split at h
    · exact Option.noConfusion h
    · exact rawMatchCore_some h
  · exact rawMatchCore_some h

/-- C5: `extract_video_id` first tries the URL-shaped pattern on the stripped
input, then falls back to a standalone 32-hex token anywhere in the stripped
input, returning the matched token lower-cased (a 32-character case-insensitive
hex token); it returns none exactly when neither pattern matches anywhere. -/
theorem extract_video_id_spec (item : String) :
    (extract_video_id item = none ↔
      (∀ i, urlMatchAt ((pyStrip item.data).drop i) = none) ∧
      (∀ i, rawMatchAt (prevAt none (pyStrip item.data) i)
        ((pyStrip item.data).drop i) = none)) ∧
    (∀ t, extract_video_id item = some t →
      ∃ i t0, t = String.mk (t0.map Char.toLower) ∧ t0.length = 32 ∧
        t0.all isHexCI = true ∧
        (urlMatchAt ((pyStrip item.data).drop i) = some t0 ∨
          ((∀ j, urlMatchAt ((pyStrip item.data).drop j) = none) ∧
            rawMatchAt (prevAt none (pyStrip item.data) i)
              ((pyStrip item.data).drop i) = some t0))) := by
  by_cases hempty : item = ""
  · subst hempty
    constructor
    · constructor
      · intro _
        constructor
        · intro i
          rw [show pyStrip ("" : String).data = [] from rfl, List.drop_nil]
          rfl
        · intro i
          rw [show pyStrip ("" : String).data = [] from rfl, List.drop_nil]
          cases i with
          | zero => rfl
          | succ j => rfl
      · intro _
        rfl
    · intro t ht
      exact Option.noConfusion ht
  · constructor
    · constructor
      · intro h
        unfold extract_video_id at h
        rw [if_neg hempty] at h
        cases hu : urlSearch (pyStrip item.data) with
        | some t => rw [hu] at h; exact Option.noConfusion h
        | none =>
          rw [hu] at h
          cases hr : rawSearch none (pyStrip item.data) with
          | some t => rw [hr] at h; exact Option.noConfusion h
          | none => exact ⟨urlSearch_none_iff.mp hu, rawSearch_none_iff.mp hr⟩
      · intro ⟨h1, h2⟩
        unfold extract_video_id
        rw [if_neg hempty, urlSearch_none_iff.mpr h1, rawSearch_none_iff.mpr h2]
    · intro t ht
      unfold extract_video_id at ht
      rw [if_neg hempty] at ht
      cases hu : urlSearch (pyStrip item.data) with
      | some t0 =>
        rw [hu] at ht
        cases ht
        obtain ⟨i, hi⟩ := urlSearch_some hu
        obtain ⟨hlen, hhex⟩ := urlMatchAt_some hi
        exact ⟨i, t0, rfl, hlen, hhex, Or.inl hi⟩
      | none =>
        rw [hu] at ht
        cases hr : rawSearch none (pyStrip item.data) with
        | some t0 =>
          rw [hr] at ht
          cases ht
          obtain ⟨i, hi⟩ := rawSearch_some hr
          obtain ⟨hlen, hhex⟩ := rawMatchAt_some hi
          exact ⟨i, t0, rfl, hlen, hhex, Or.inr ⟨urlSearch_none_iff.mp hu, hi⟩⟩
        | none => rw [hr] at ht; exact Option.noConfusion ht

/-- Concrete input used to witness the identifier-extractor claim. -/
def c5item : String := " HTTPS://WWW.LOOM.COM/SHARE/ABCDEF0123456789ABCDEF0123456789 "

/-- Witness for C5: at a concrete mixed-case share URL with surrounding
whitespace, the URL pattern matches and the token is returned lower-cased. -/
theorem extract_video_id_spec_witness :
    extract_video_id c5item = some "abcdef0123456789abcdef0123456789" ∧
    (∃ i t0, ("abcdef0123456789abcdef0123456789" : String) = String.mk (t0.map Char.toLower) ∧
      t0.length = 32 ∧ t0.all isHexCI = true ∧
      (urlMatchAt ((pyStrip c5item.data).drop i) = some t0 ∨
        ((∀ j, urlMatchAt ((pyStrip c5item.data).drop j) = none) ∧
          rawMatchAt (prevAt none (pyStrip c5item.data) i)
            ((pyStrip c5item.data).drop i) = some t0))) :=
  ⟨by decide, (extract_video_id_spec c5item).2 _ (by decide)⟩

/-! ### Python value model for parsed JSON

JSON numbers are modelled as integers (none of the payload heuristics treat
floats specially and no claim involves them); `pyRepr`/`pyStrJ` model Python
`repr`/`str` for the printable-ASCII content the scraper handles. -/

inductive Json where
  | null : Json
  | bool : Bool → Json
  | num : Int → Json
  | str : String → Json
  | arr : List Json → Json
  | obj : List (String × Json) → Json

/-- Python truthiness of a JSON value. -/
def pyTruthy : Json → Bool
  | .null => false
  | .bool b => b
  | .num n => !(n = 0)
  | .str s => !(s = "")
  | .arr items => !items.isEmpty
  | .obj fields => !fields.isEmpty

/-- Python `key in node` / `node[key]` on a dict (keys are unique after JSON parsing). -/
def jlookup (fields : List (String × Json)) (k : String) : Option Json :=
  (fields.find? (fun p => p.1 = k)).map (fun p => p.2)

/-- Escape one character for Python string repr with quote character `q`. -/
def pyEscape (q : Char) (c : Char) : List Char :=
  if c = '\\' then ['\\', '\\']
  else if c = q then ['\\', q]
  else if c = '\n' then ['\\', 'n']
  else if c = '\r' then ['\\', 'r']
  else if c = '\t' then ['\\', 't']
  else [c]

/-- Python `repr` of a string: single quotes unless the string holds a single
quote but no double quote. -/
def pyReprStr (s : String) : String :=
  let sq : Char := Char.ofNat 39
  let q : Char := if s.data.contains sq && !(s.data.contains '"') then '"' else sq
  String.mk (q :: (s.data.foldr (fun c acc => pyEscape q c ++ acc) []) ++ [q])

/-- Python `repr` of a JSON value. -/
def pyRepr : Json → String
  | .null => "None"
  | .bool b => cond b "True" "False"
  | .num n => toString n
  | .str s => pyReprStr s
  | .arr items =>
    "[" ++ String.intercalate ", " (items.attach.map (fun x => pyRepr x.1)) ++ "]"
  | .obj fields =>
    "\x7b" ++ String.intercalate ", "
      (fields.attach.map (fun x => pyReprStr x.1.1 ++ ": " ++ pyRepr x.1.2)) ++ "\x7d"
termination_by j => sizeOf j
decreasing_by
  · have h1 := List.sizeOf_lt_of_mem x.2
    simp only [Json.arr.sizeOf_spec]
    omega
  · obtain ⟨⟨a, b⟩, hmem⟩ := x
    have h1 := List.sizeOf_lt_of_mem hmem
    simp only [Prod.mk.sizeOf_spec] at h1
    simp only [Json.obj.sizeOf_spec]
    omega

/-- Python `str` of a JSON value (`str` of a string is the string itself,
`str` of any other value is its `repr`). -/
def pyStrJ : Json → String
  | .str s => s
  | .num n => toString n
  | .bool b => cond b "True" "False"
  | .null => "None"
  | j => pyRepr j

def isScalarPy : Json → Bool
  | .str _ => true
  | .num _ => true
  | .bool _ => true
  | _ => false

/-! ### Exceptions and HTTP transport model

`PyExc` covers the exception classes that can escape `fetch_transcript_text`:
`requests.RequestException` (including `HTTPError` from `raise_for_status`),
`LoomError`, `AttributeError` (calling `.get` on a non-dict caption item) and
`TypeError` (`"\n".join` over a non-string fragment).  An HTTP response is its
status, its text, and the result of parsing its body as JSON (`none` when
`resp.json()` would raise `ValueError`); `netErr` is a transport failure. -/

inductive PyExc where
  | reqExc : PyExc
  | loomErr : String → PyExc
  | attrErr : PyExc
  | typeErr : PyExc
deriving DecidableEq

inductive HResp where
  | netErr : HResp
  | resp : Nat → String → Option Json → HResp

/-- Caption item text: `c.get("text") or c.get("caption") or ""`; raises
`AttributeError` when the item is not a dict (lines 95-98 of the client). -/
def capFrag (c : Json) : Except PyExc (Option Json) :=
  match c with
  | .obj fs =>
    let v1 := (jlookup fs "text").getD .null
    let v2 := (jlookup fs "caption").getD .null
    let txt : Json := if pyTruthy v1 then v1 else if pyTruthy v2 then v2 else .str ""
    .ok (if pyTruthy txt then some txt else none)
  | _ => .error .attrErr

def capFragments : List Json → Except PyExc (List Json)
  | [] => .ok []
  | c :: cs =>
    match capFrag c with
    | .error e => .error e
    | .ok f =>
      match capFragments cs with
      | .error e => .error e
      | .ok rest => .ok (match f with | some t => t :: rest | none => rest)

/-- Python `"\n".join(fragments)`: `TypeError` on any non-string fragment. -/
def pyJoinStrs : List Json → Except PyExc (List String)
  | [] => .ok []
  | .str s :: rest =>
    (match pyJoinStrs rest with
     | .error e => .error e
     | .ok ss => .ok (s :: ss))
  | _ :: _ => .error .typeErr

def joinFragments (frags : List Json) : Except PyExc String :=
  match pyJoinStrs frags with
  | .error e => .error e
  | .ok ss => .ok (String.intercalate "\n" ss)

/-- List-item text on the top-level-list path (lines 110-116): dict items use
the text/caption chain, other items use `str(c)`; only truthy texts are kept. -/
def listFrag (c : Json) : Option Json :=
  match c with
  | .obj fs =>
    let v1 := (jlookup fs "text").getD .null
    let v2 := (jlookup fs "caption").getD .null
    let txt : Json := if pyTruthy v1 then v1 else if pyTruthy v2 then v2 else .str ""
    if pyTruthy txt then some txt else none
  | c => if pyStrJ c = "" then none else some (.str (pyStrJ c))

/-- Shape heuristics of `_try_fetch_json_transcript` (lines 88-119) applied to
the parsed JSON body. -/
def jsonHeuristics : Json → Except PyExc (Option String)
  | .obj fields =>
    match jlookup fields "transcript" with
    | some (.str s) => .ok (some s)
    | _ =>
      match jlookup fields "captions" with
      | some (.arr cs) =>
        (match capFragments cs with
         | .error e => .error e
         | .ok frags =>
           if frags.isEmpty then .ok none
           else
             match joinFragments frags with
             | .error e => .error e
             | .ok j => .ok (some (pyStripStr j)))
      | _ =>
        match jlookup fields "data" with
        | some (.obj inner) =>
          (match jlookup inner "transcript" with
           | some (.str s) => .ok (some s)
           | _ => .ok none)
        | _ => .ok none
  | .arr items =>
    (match items.filterMap listFrag with
     | [] => .ok none
     | frags =>
       match joinFragments frags with
       | .error e => .error e
       | .ok j => .ok (some (pyStripStr j)))
  | _ => .ok none

/-- Method `_try_fetch_json_transcript` (lines 77-119): the whole request part
is wrapped in `try/except (RequestException, ValueError)`, so a network error,
any `raise_for_status` HTTPError (status 400-599 other than the explicit 404
branch) and a JSON parse failure all return `None`. -/
def tryFetchJson (get1 : String → HResp) (url : String) : Except PyExc (Option String) :=
  match get1 url with
  | .netErr => .ok none
  | .resp st _ js =>
    if st = 404 then .ok none
    else if 400 ≤ st ∧ st < 600 then .ok none
    else
      match js with
      | none => .ok none
      | some data => jsonHeuristics data

/-- Method `_get` (lines 209-215): 401/403/404 raise `LoomError`, other error
statuses raise through `raise_for_status`. -/
def loomGet (get1 : String → HResp) (url : String) : Except PyExc String :=
  match get1 url with
  | .netErr => .error .reqExc
  | .resp st txt _ =>
    if st = 401 ∨ st = 403 ∨ st = 404 then
      .error (.loomErr ("Unavailable: " ++ toString st))
    else if 400 ≤ st ∧ st < 600 then .error .reqExc
    else .ok txt

def api1 (vid : String) : String := "https://www.loom.com/api/v1/captions/" ++ vid

def api2 (vid : String) : String := "https://www.loom.com/api/captions/transcript/" ++ vid

def api3 (vid : String) : String := "https://www.loom.com/api/v1/videos/" ++ vid ++ "/transcript"

def shareUrl (vid : String) : String := "https://www.loom.com/share/" ++ vid

def embedUrl (vid : String) : String := "https://www.loom.com/embed/" ++ vid

/-- Python `if text:` on an `Optional[str]`. -/
def nonEmptyText : Option String → Option String
  | some s => if s = "" then none else some s
  | none => none

/-- One pass of `fetch_transcript_text` (lines 45-75), without the retry
decorator.  `get1` is the HTTP transport; `parsePage` abstracts
`_parse_share_page_for_transcript` (BeautifulSoup HTML parsing).  Returns the
outcome together with the list of URLs requested, in request order. -/
def fetch_transcript_once (get1 : String → HResp) (parsePage : String → Option String)
    (vid : String) : Except PyExc String × List String :=
  match tryFetchJson get1 (api1 vid) with
  | .error e => (.error e, [api1 vid])
  | .ok o1 =>
    match nonEmptyText o1 with
    | some t => (.ok t, [api1 vid])
    | none =>
      match tryFetchJson get1 (api2 vid) with
      | .error e => (.error e, [api1 vid, api2 vid])
      | .ok o2 =>
        match nonEmptyText o2 with
        | some t => (.ok t, [api1 vid, api2 vid])
        | none =>
          match tryFetchJson get1 (api3 vid) with
          | .error e => (.error e, [api1 vid, api2 vid, api3 vid])
          | .ok o3 =>
            match nonEmptyText o3 with
            | some t => (.ok t, [api1 vid, api2 vid, api3 vid])
            | none =>
              match loomGet get1 (shareUrl vid) with
              | .error e => (.error e, [api1 vid, api2 vid, api3 vid, shareUrl vid])
              | .ok html =>
                match nonEmptyText (parsePage html) with
                | some t => (.ok t, [api1 vid, api2 vid, api3 vid, shareUrl vid])
                | none =>
                  match loomGet get1 (embedUrl vid) with
                  | .error e =>
                    (.error e,
                      [api1 vid, api2 vid, api3 vid, shareUrl vid, embedUrl vid])
                  | .ok html2 =>
                    match nonEmptyText (parsePage html2) with
                    | some t =>
                      (.ok t, [api1 vid, api2 vid, api3 vid, shareUrl vid, embedUrl vid])
                    | none =>
                      (.error (.loomErr
                          "Transcript not found or video is private/unavailable."),
                        [api1 vid, api2 vid, api3 vid, shareUrl vid, embedUrl vid])

/-- Retry classification of the tenacity decorator (lines 39-44):
`retry_if_exception_type((requests.RequestException, LoomError))`. -/
def retryable : PyExc → Bool
  | .reqExc => true
  | .loomErr _ => true
  | .attrErr => false
  | .typeErr => false

/-- Method `fetch_transcript_text` under its tenacity decorator:
`stop_after_attempt(3)`, `reraise=True`, retrying only `retryable` exceptions.
`get n` is the transport as seen by attempt `n` (a transient network fault may
make attempts differ); backoff delays are timing and are not modelled. -/
def fetch_transcript_text (get : Nat → String → HResp)
    (parsePage : String → Option String) (vid : String) : Except PyExc String :=
  match (fetch_transcript_once (get 0) parsePage vid).1 with
  | .ok t => .ok t
  | .error e =>
    if retryable e then
      match (fetch_transcript_once (get 1) parsePage vid).1 with
      | .ok t => .ok t
      | .error e1 =>
        if retryable e1 then (fetch_transcript_once (get 2) parsePage vid).1
        else .error e1
    else .error e

/-- The sequence of attempts the decorated call performs, each with its result
and its request trace. -/
def fetch_attempts (get : Nat → String → HResp)
    (parsePage : String → Option String) (vid : String) :
    List (Except PyExc String × List String) :=
  match (fetch_transcript_once (get 0) parsePage vid).1 with
  | .ok _ => [fetch_transcript_once (get 0) parsePage vid]
  | .error e =>
    if retryable e then
      match (fetch_transcript_once (get 1) parsePage vid).1 with
      | .ok _ => [fetch_transcript_once (get 0) parsePage vid,
          fetch_transcript_once (get 1) parsePage vid]
      | .error e1 =>
        if retryable e1 then
          [fetch_transcript_once (get 0) parsePage vid,
            fetch_transcript_once (get 1) parsePage vid,
            fetch_transcript_once (get 2) parsePage vid]
        else [fetch_transcript_once (get 0) parsePage vid,
          fetch_transcript_once (get 1) parsePage vid]
    else [fetch_transcript_once (get 0) parsePage vid]

/-! ### Free-text blob interpreter (`_extract_text_from_json_blob`, lines 162-207)

The textual `json.loads` step (with its single-quote repair fallback) is the
standard-library parser and is not embedded; the traversal below operates on
the parsed tree, which is what every claim about this function quantifies over. -/

def prioKeys : List String := ["transcript", "captions", "subtitles", "srt", "vtt", "text"]

def isContainer : Json → Bool
  | .obj _ => true
  | .arr _ => true
  | _ => false

/-- Python `isinstance(item, (str, int, float)) and str(item).strip()`. -/
def scalarKeep (j : Json) : Bool := isScalarPy j && !(pyStripStr (pyStrJ j) = "")

/-- Handling of one priority key of a dict node (lines 182-194): long string
values become fragments; list values contribute their kept scalars as fragments
and enqueue everything else; dict values are enqueued. -/
def prioStep (fields : List (String × Json)) (key : String) : List String × List Json :=
  match jlookup fields key with
  | none => ([], [])
  | some (.str s) => (if 20 < s.length then [s] else [], [])
  | some (.arr items) =>
    items.foldl (fun acc item =>
      if scalarKeep item then (acc.1 ++ [pyStrJ item], acc.2)
      else (acc.1, acc.2 ++ [item])) ([], [])
  | some (.obj inner) => ([], [Json.obj inner])
  | some _ => ([], [])

/-- Full processing of a dict node: all priority keys in order, then every
dict- or list-valued child is enqueued (lines 182-198). -/
def dictStep (fields : List (String × Json)) : List String × List Json :=
  ((prioKeys.foldl (fun acc key =>
      (acc.1 ++ (prioStep fields key).1, acc.2 ++ (prioStep fields key).2)) ([], [])).1,
    (prioKeys.foldl (fun acc key =>
      (acc.1 ++ (prioStep fields key).1, acc.2 ++ (prioStep fields key).2)) ([], [])).2
      ++ (fields.map (fun p => p.2)).filter isContainer)

/-- Processing of a list node (lines 199-204). -/
def listStep (items : List Json) : List String × List Json :=
  items.foldl (fun acc v =>
    if isContainer v then (acc.1, acc.2 ++ [v])
    else if scalarKeep v then (acc.1 ++ [pyStrJ v], acc.2)
    else acc) ([], [])

/-- The bounded breadth-first walk (lines 173-204): `queue.pop(0)` with a limit
of 20000 visited nodes; scalars in the queue are popped and ignored. -/
def walkFuel : Nat → List Json → List String → List String
  | 0, _, frags => frags
  | _, [], frags => frags
  | fuel + 1, node :: queue, frags =>
    match node with
    | .obj fields =>
      walkFuel fuel (queue ++ (dictStep fields).2) (frags ++ (dictStep fields).1)
    | .arr items =>
      walkFuel fuel (queue ++ (listStep items).2) (frags ++ (listStep items).1)
    | _ => walkFuel fuel queue frags

/-- Post-parse body of `_extract_text_from_json_blob` (lines 173-207): join the
fragments with newlines, strip, and return only if longer than 40 characters. -/
def extract_text_from_json_data (data : Json) : Option String :=
  if 40 < (pyStripStr (String.intercalate "\n" (walkFuel 20000 [data] []))).length
  then some (pyStripStr (String.intercalate "\n" (walkFuel 20000 [data] [])))
  else none

/-! ### The captions branch of the typed JSON path (claim C8) -/

/-- Specification-side reading of one caption item: the first non-empty of its
"text" and "caption" string fields. -/
def strValNE : Option Json → Option String
  | some (.str s) => if s = "" then none else some s
  | _ => none

def specCapText (fs : List (String × Json)) : Option String :=
  match strValNE (jlookup fs "text") with
  | some s => some s
  | none => strValNE (jlookup fs "caption")

/-- A field that is absent or holds a string. -/
def strOrAbsent : Option Json → Bool
  | none => true
  | some (.str _) => true
  | _ => false

/-- A caption item that the code handles without raising: a dict whose "text"
and "caption" fields, when present, are strings. -/
def capItemOk : Json → Bool
  | .obj fs => strOrAbsent (jlookup fs "text") && strOrAbsent (jlookup fs "caption")
  | _ => false

def specCapFrags (cs : List Json) : List String :=
  cs.filterMap fun c =>
    match c with
    | .obj fs => specCapText fs
    | _ => none

/-- The map has no string-valued "transcript" field (which takes priority). -/
def noStrTranscript (fields : List (String × Json)) : Bool :=
  match jlookup fields "transcript" with
  | some (.str _) => false
  | _ => true

theorem strOrAbsent_cases {o : Option Json} (h : strOrAbsent o = true) :
    o = none ∨ ∃ s, o = some (.str s) := by
  cases o with
  | none => exact Or.inl rfl
  | some v =>
    cases v with
    | str s => exact Or.inr ⟨s, rfl⟩
    | null => simp [strOrAbsent] at h
    | bool b => simp [strOrAbsent] at h
    | num n => simp [strOrAbsent] at h
    | arr l => simp [strOrAbsent] at h
    | obj f => simp [strOrAbsent] at h

theorem capFrag_ok {fs : List (String × Json)}
    (ht : strOrAbsent (jlookup fs "text") = true)
    (hc : strOrAbsent (jlookup fs "caption") = true) :
    capFrag (.obj fs) = .ok ((specCapText fs).map Json.str) := by
  rcases strOrAbsent_cases ht with hT | ⟨s, hT⟩ <;>
    rcases strOrAbsent_cases hc with hC | ⟨t, hC⟩
  · simp [capFrag, specCapText, strValNE, hT, hC, pyTruthy]
  · by_cases hts : t = "" <;>
      simp [capFrag, specCapText, strValNE, hT, hC, pyTruthy, hts]
  · by_cases hs : s = "" <;>
      simp [capFrag, specCapText, strValNE, hT, hC, pyTruthy, hs]
  · by_cases hs : s = "" <;> by_cases hts : t = "" <;>
      simp [capFrag, specCapText, strValNE, hT, hC, pyTruthy, hs, hts]

theorem capFragments_spec {cs : List Json} (h : cs.all capItemOk = true) :
    capFragments cs = .ok ((specCapFrags cs).map Json.str) := by
  induction cs with
  | nil => rfl
  | cons c cs ih =>
    rw [List.all_cons, Bool.and_eq_true] at h
    obtain ⟨hc, hcs⟩ := h
    cases c with
    | obj fs =>
      unfold capItemOk at hc
      rw [Bool.and_eq_true] at hc
      obtain ⟨ht, hcap⟩ := hc
      show (match capFrag (.obj fs) with
        | Except.error e => (Except.error e : Except PyExc (List Json))
        | Except.ok f =>
          match capFragments cs with
          | Except.error e => Except.error e
          | Except.ok rest =>
            Except.ok (match f with | some t => t :: rest | none => rest)) =
        Except.ok ((specCapFrags ((Json.obj fs) :: cs)).map Json.str)
      rw [capFrag_ok ht hcap, ih hcs]
      unfold specCapFrags
      rw [List.filterMap_cons]
      cases hsc : specCapText fs with
      | none => simp [hsc]
      | some s => simp [hsc]
    | null => simp [capItemOk] at hc
    | bool b => simp [capItemOk] at hc
    | num n => simp [capItemOk] at hc
    | str s => simp [capItemOk] at hc
    | arr l => simp [capItemOk] at hc

theorem pyJoinStrs_map (ss : List String) : pyJoinStrs (ss.map Json.str) = .ok ss := by
  induction ss with
  | nil => rfl
  | cons s ss ih =>
    show (match pyJoinStrs (ss.map Json.str) with
      | Except.error e => (Except.error e : Except PyExc (List String))
      | Except.ok tl => Except.ok (s :: tl)) = Except.ok (s :: ss)
    rw [ih]

theorem joinFragments_strs (ss : List String) :
    joinFragments (ss.map Json.str) = .ok (String.intercalate "\n" ss) := by
  unfold joinFragments
  rw [pyJoinStrs_map]

/-- C8 (amended): on the typed JSON path, for every map with no string
"transcript" field whose "captions" field is a list of well-shaped items
(dicts with string-or-absent "text"/"caption" fields), the interpreter
concatenates the first non-empty "text" or "caption" value, skipping
empty ones, joined by newline and stripped, returning none when no fragment
survives. -/
theorem jsonHeuristics_captions (fields : List (String × Json)) (cs : List Json)
    (h1 : noStrTranscript fields = true)
    (h2 : jlookup fields "captions" = some (.arr cs))
    (h3 : cs.all capItemOk = true) :
    jsonHeuristics (.obj fields) =
      .ok (if specCapFrags cs = [] then none
        else some (pyStripStr (String.intercalate "\n" (specCapFrags cs)))) := by
  show (match jlookup fields "transcript" with
    | some (Json.str s) => (Except.ok (some s) : Except PyExc (Option String))
    | _ =>
      match jlookup fields "captions" with
      | some (Json.arr cs2) =>
        (match capFragments cs2 with
         | Except.error e => Except.error e
         | Except.ok frags =>
           if frags.isEmpty then Except.ok none
           else
             match joinFragments frags with
             | Except.error e => Except.error e
             | Except.ok j => Except.ok (some (pyStripStr j)))
      | _ =>
        match jlookup fields "data" with
        | some (Json.obj inner) =>
          (match jlookup inner "transcript" with
           | some (Json.str s) => Except.ok (some s)
           | _ => Except.ok none)
        | _ => Except.ok none) = _
  split
  · rename_i s hT
    unfold noStrTranscript at h1
    rw [hT] at h1
    simp at h1
  · split
    · rename_i cs2 hC2
      rw [h2] at hC2
      injection hC2 with e1
      injection e1 with e2
      subst e2
      rw [capFragments_spec h3]
      show (if ((specCapFrags cs).map Json.str).isEmpty then (Except.ok none : Except PyExc (Option String))
        else
          match joinFragments ((specCapFrags cs).map Json.str) with
          | Except.error e => Except.error e
          | Except.ok j => Except.ok (some (pyStripStr j))) = _
      by_cases he : specCapFrags cs = []
      · rw [he]
        simp
      · have hne : ((specCapFrags cs).map Json.str).isEmpty = false := by
          cases hsc : specCapFrags cs with
          | nil => exact absurd hsc he
          | cons a tl => rfl
        rw [hne, joinFragments_strs, if_neg he]
        simp
    · rename_i hno
      exact absurd h2 (fun h => hno cs h)

/-- Fields of the C8 counterexample: a map holding both a string "transcript"
and a well-formed "captions" list. -/
def c8badFields : List (String × Json) :=
  [("transcript", .str "zz"),
    ("captions", .arr [.obj [("text", .str "hello")], .obj [("caption", .str "world")]])]

/-- C8 counterexample: the claim as stated predicts the captions concatenation
"hello\nworld" for every map with a list "captions" field, but a string
"transcript" field takes priority and the interpreter returns "zz" instead. -/
theorem jsonHeuristics_transcript_priority :
    jsonHeuristics (.obj c8badFields) = .ok (some "zz") ∧
    (("zz" : String) == "hello\nworld") = false :=
  ⟨rfl, by decide⟩

/-- Fields of the C8 witness: the example from the claim itself. -/
def c8fields : List (String × Json) :=
  [("captions", .arr [.obj [("text", .str "hello")], .obj [("caption", .str "world")]])]

def c8items : List Json :=
  [.obj [("text", .str "hello")], .obj [("caption", .str "world")]]

/-- Witness for C8 at the example given in the claim:
`{"captions":[{"text":"hello"},{"caption":"world"}]}` yields "hello\nworld". -/
theorem jsonHeuristics_captions_witness :
    (noStrTranscript c8fields = true ∧ jlookup c8fields "captions" = some (.arr c8items) ∧
      c8items.all capItemOk = true) ∧
    jsonHeuristics (.obj c8fields) =
      .ok (if specCapFrags c8items = [] then none
        else some (pyStripStr (String.intercalate "\n" (specCapFrags c8items)))) ∧
    jsonHeuristics (.obj c8fields) = .ok (some "hello\nworld") :=
  ⟨⟨by decide, rfl, by decide⟩,
    jsonHeuristics_captions c8fields c8items (by decide) rfl (by decide), rfl⟩

/-! ### Claim theorems for the free-text blob path -/

/-- Long transcript string of the C9 example. -/
def c9long : String := "this is a sufficiently long transcript body exceeding forty chars"

/-- C9 first example: a blob with a nested long "transcript" string. -/
def c9ex1 : Json := .obj [("foo", .obj [("transcript", .str c9long)])]

/-- C9 second example: a short unrelated string. -/
def c9ex2 : Json := .obj [("x", .str "short")]

/-- C9: the free-text blob path joins the fragments collected by the bounded
breadth-first traversal in discovery order with newline separators, strips the
result, and returns it only when its length exceeds 40 characters; in
particular the nested-transcript example returns its string and the short
example returns none. -/
theorem extract_text_spec :
    extract_text_from_json_data c9ex1 = some c9long ∧
    extract_text_from_json_data c9ex2 = none ∧
    ∀ d s, extract_text_from_json_data d = some s →
      s = pyStripStr (String.intercalate "\n" (walkFuel 20000 [d] [])) ∧
      40 < s.length ∧ pyStripStr s = s := by
  refine ⟨by decide, by decide, ?_⟩
  intro d s h
  unfold extract_text_from_json_data at h
  split at h
  · rename_i hlen
    injection h with h2
    subst h2
    exact ⟨rfl, hlen, pyStripStr_idem _⟩
  · exact Option.noConfusion h

/-- Witness for C9, applying the general part at the first example. -/
theorem extract_text_spec_witness :
    extract_text_from_json_data c9ex1 = some c9long ∧
    (c9long = pyStripStr (String.intercalate "\n" (walkFuel 20000 [c9ex1] [])) ∧
      40 < c9long.length ∧ pyStripStr c9long = c9long) :=
  ⟨by decide, extract_text_spec.2.2 c9ex1 c9long (by decide)⟩

/-- Fragment of the C10 example: 21 characters, above the 20-character bar. -/
def c10frag : String := "abcdefghijklmnopqrstu"

/-- C10 example: a map whose "captions" list holds one map with a long "text". -/
def c10ex : Json := .obj [("captions", .arr [.obj [("text", .str c10frag)]])]

/-- C10: in the free-text blob traversal, the inner caption map is enqueued both
by the priority-key handling of "captions" and (via its enclosing list) by the
enqueue-all-children step, so its "text" fragment is collected twice and appears
twice in the joined output. -/
theorem blob_double_enqueue :
    walkFuel 20000 [c10ex] [] = [c10frag, c10frag] ∧
    extract_text_from_json_data c10ex = some (c10frag ++ "\n" ++ c10frag) := by
  constructor
  · decide
  · decide

/-! ### Discovery engine claims: strategy order, retries, error handling -/

theorem append_ne_of_length_ne {a b vid : String} (h : ¬ a.length = b.length) :
    ¬ a ++ vid = b ++ vid := by
  intro he
  have h2 := congrArg String.length he
  rw [String.length_append, String.length_append] at h2
  omega

theorem share_ne_api1 (vid : String) : ¬ shareUrl vid = api1 vid := by
  unfold shareUrl api1
  exact append_ne_of_length_ne (by decide)

theorem embed_ne_api1 (vid : String) : ¬ embedUrl vid = api1 vid := by
  unfold embedUrl api1
  exact append_ne_of_length_ne (by decide)

theorem embed_ne_api2 (vid : String) : ¬ embedUrl vid = api2 vid := by
  unfold embedUrl api2
  exact append_ne_of_length_ne (by decide)

theorem embed_ne_api3 (vid : String) : ¬ embedUrl vid = api3 vid := by
  intro he
  unfold embedUrl api3 at he
  have h2 := congrArg String.length he
  rw [String.length_append, String.length_append, String.length_append] at h2
  have e1 : ("https://www.loom.com/embed/" : String).length = 27 := rfl
  have e2 : ("https://www.loom.com/api/v1/videos/" : String).length = 35 := rfl
  have e3 : ("/transcript" : String).length = 11 := rfl
  rw [e1, e2, e3] at h2
  omega

theorem embed_ne_share (vid : String) : ¬ embedUrl vid = shareUrl vid := by
  intro he
  unfold embedUrl shareUrl at he
  have h2 := congrArg String.data he
  rw [String.data_append, String.data_append] at h2
  have h3 := List.append_cancel_right h2
  exact absurd h3 (by decide)

/-- A guessed endpoint that contributes no transcript text, so the engine moves
past it (the helper returns `None` or an empty/blank-joined result). -/
def apiSkip (get1 : String → HResp) (u : String) : Bool :=
  match tryFetchJson get1 u with
  | .ok o => (nonEmptyText o).isNone
  | .error _ => false

theorem apiSkip_elim {get1 : String → HResp} {u : String} (h : apiSkip get1 u = true) :
    ∃ o, tryFetchJson get1 u = .ok o ∧ nonEmptyText o = none := by
  unfold apiSkip at h
  split at h
  · rename_i o ho
    exact ⟨o, ho, Option.isNone_iff_eq_none.mp h⟩
  · exact Bool.noConfusion h

theorem nonEmptyText_some {o : Option String} {t : String}
    (h : nonEmptyText o = some t) : ¬ t = "" := by
  cases o with
  | none => exact Option.noConfusion h
  | some s =>
    have h2 : (if s = "" then none else some s : Option String) = some t := h
    by_cases hs : s = ""
    · rw [if_pos hs] at h2
      exact Option.noConfusion h2
    · rw [if_neg hs] at h2
      injection h2 with h3
      exact h3 ▸ hs

/-- C1: `fetch_transcript_text` (one pass) tries the strategies strictly in the
fixed order — the requested URLs always form a prefix of the list
[api1, api2, api3, share, embed] — and returns the first non-empty transcript
text; in particular a non-empty result from the first guessed API endpoint is
returned immediately and neither the share page nor the embed page is fetched,
and when the three endpoints yield nothing and the share page parses to a
non-empty text, the embed page is not fetched either. -/
theorem fetch_once_priority (get1 : String → HResp) (pp : String → Option String)
    (vid : String) :
    (fetch_transcript_once get1 pp vid).2 <+:
      [api1 vid, api2 vid, api3 vid, shareUrl vid, embedUrl vid] ∧
    (∀ t, (fetch_transcript_once get1 pp vid).1 = .ok t → ¬ t = "") ∧
    (∀ t, tryFetchJson get1 (api1 vid) = .ok (some t) → ¬ t = "" →
      fetch_transcript_once get1 pp vid = (.ok t, [api1 vid]) ∧
      ¬ shareUrl vid ∈ (fetch_transcript_once get1 pp vid).2 ∧
      ¬ embedUrl vid ∈ (fetch_transcript_once get1 pp vid).2) ∧
    (∀ html t, apiSkip get1 (api1 vid) = true → apiSkip get1 (api2 vid) = true →
      apiSkip get1 (api3 vid) = true → loomGet get1 (shareUrl vid) = .ok html →
      pp html = some t → ¬ t = "" →
      fetch_transcript_once get1 pp vid =
        (.ok t, [api1 vid, api2 vid, api3 vid, shareUrl vid]) ∧
      ¬ embedUrl vid ∈ (fetch_transcript_once get1 pp vid).2) := by
  refine ⟨?_, ?_, ?_, ?_⟩
  · unfold fetch_transcript_once
    repeat' split
    all_goals exact ⟨_, rfl⟩
  · intro t h
    unfold fetch_transcript_once at h
    repeat' split at h
    all_goals first
      | (rename_i hne; injection h with h2; exact h2 ▸ nonEmptyText_some hne)
      | exact Except.noConfusion h
  · intro t h ht
    have hne : nonEmptyText (some t) = some t := by
      show (if t = "" then none else some t : Option String) = some t
      rw [if_neg ht]
    have hres : fetch_transcript_once get1 pp vid = (.ok t, [api1 vid]) := by
      unfold fetch_transcript_once
      rw [h]
      simp [hne]
    refine ⟨hres, ?_, ?_⟩
    · rw [hres]
      simp [share_ne_api1 vid]
    · rw [hres]
      simp [embed_ne_api1 vid]
  · intro html t h1 h2 h3 h4 h5 ht
    obtain ⟨o1, ho1, hn1⟩ := apiSkip_elim h1
    obtain ⟨o2, ho2, hn2⟩ := apiSkip_elim h2
    obtain ⟨o3, ho3, hn3⟩ := apiSkip_elim h3
    have hne : nonEmptyText (some t) = some t := by
      show (if t = "" then none else some t : Option String) = some t
      rw [if_neg ht]
    have hres : fetch_transcript_once get1 pp vid =
        (.ok t, [api1 vid, api2 vid, api3 vid, shareUrl vid]) := by
      unfold fetch_transcript_once
      rw [ho1]
      simp only [hn1, ho2, hn2, ho3, hn3, h4, h5, hne]
    refine ⟨hres, ?_⟩
    rw [hres]
    simp [embed_ne_api1 vid, embed_ne_api2 vid, embed_ne_api3 vid, embed_ne_share vid]

theorem fetch_once_head (get1 : String → HResp) (pp : String → Option String)
    (vid : String) :
    (fetch_transcript_once get1 pp vid).2.head? = some (api1 vid) := by
  unfold fetch_transcript_once
  repeat' split
  all_goals rfl

/-- C2: the decorated discovery call performs at most 3 attempts; its result is
the result of the last attempt; every non-final attempt failed with a retryable
error (a transport error or the not-found/unavailable `LoomError`); every
attempt starts again from strategy 1 (its first request is the first guessed
endpoint); a non-retryable first error is returned after exactly one attempt;
and a retryable first error always leads to a second attempt. -/
theorem fetch_retry_spec (get : Nat → String → HResp) (pp : String → Option String)
    (vid : String) :
    (fetch_attempts get pp vid).length ≤ 3 ∧
    ((fetch_attempts get pp vid).getLast?).map (fun a => a.1) =
      some (fetch_transcript_text get pp vid) ∧
    (∀ a ∈ (fetch_attempts get pp vid).dropLast,
      ∃ e, a.1 = .error e ∧ retryable e = true) ∧
    (∀ a ∈ fetch_attempts get pp vid, a.2.head? = some (api1 vid)) ∧
    (∀ e, (fetch_transcript_once (get 0) pp vid).1 = .error e → retryable e = false →
      fetch_attempts get pp vid = [fetch_transcript_once (get 0) pp vid] ∧
      fetch_transcript_text get pp vid = .error e) ∧
    (∀ e, (fetch_transcript_once (get 0) pp vid).1 = .error e → retryable e = true →
      2 ≤ (fetch_attempts get pp vid).length) := by
  cases h0 : (fetch_transcript_once (get 0) pp vid).1 with
  | ok t =>
    have ha : fetch_attempts get pp vid = [fetch_transcript_once (get 0) pp vid] := by
      simp [fetch_attempts, h0]
    have hf : fetch_transcript_text get pp vid = .ok t := by
      simp [fetch_transcript_text, h0]
    refine ⟨by simp [ha], by simp [ha, hf, h0], by simp [ha], ?_, ?_, ?_⟩
    · intro a hmem
      rw [ha, List.mem_singleton] at hmem
      subst hmem
      exact fetch_once_head _ _ _
    · intro e' he' _
      exact Except.noConfusion he'
    · intro e' he' _
      exact Except.noConfusion he'
  | error e =>
    by_cases hr : retryable e = true
    · cases h1 : (fetch_transcript_once (get 1) pp vid).1 with
      | ok t1 =>
        have ha : fetch_attempts get pp vid =
            [fetch_transcript_once (get 0) pp vid,
              fetch_transcript_once (get 1) pp vid] := by
          simp [fetch_attempts, h0, hr, h1]
        have hf : fetch_transcript_text get pp vid = .ok t1 := by
          simp [fetch_transcript_text, h0, hr, h1]
        refine ⟨by simp [ha], by simp [ha, hf, h1], ?_, ?_, ?_, ?_⟩
        · intro a hmem
          rw [ha] at hmem
          simp only [List.dropLast_cons₂, List.dropLast_single, List.mem_cons, List.not_mem_nil, or_false, List.mem_singleton] at hmem
          subst hmem
          exact ⟨e, h0, hr⟩
        · intro a hmem
          rw [ha, List.mem_cons, List.mem_singleton] at hmem
          rcases hmem with rfl | rfl
          · exact fetch_once_head _ _ _
          · exact fetch_once_head _ _ _
        · intro e' he' hre'
          injection he' with h2
          subst h2
          rw [hr] at hre'
          exact Bool.noConfusion hre'
        · intro e' _ _
          rw [ha]
          simp
      | error e1 =>
        by_cases hr1 : retryable e1 = true
        · have ha : fetch_attempts get pp vid =
              [fetch_transcript_once (get 0) pp vid,
                fetch_transcript_once (get 1) pp vid,
                fetch_transcript_once (get 2) pp vid] := by
            simp [fetch_attempts, h0, hr, h1, hr1]
          have hf : fetch_transcript_text get pp vid =
              (fetch_transcript_once (get 2) pp vid).1 := by
            simp [fetch_transcript_text, h0, hr, h1, hr1]
          refine ⟨by simp [ha], by simp [ha, hf], ?_, ?_, ?_, ?_⟩
          · intro a hmem
            rw [ha] at hmem
            simp only [List.dropLast_cons₂, List.dropLast_single, List.mem_cons,
              List.not_mem_nil, or_false, List.mem_singleton] at hmem
            rcases hmem with rfl | rfl
            · exact ⟨e, h0, hr⟩
            · exact ⟨e1, h1, hr1⟩
          · intro a hmem
            rw [ha, List.mem_cons, List.mem_cons, List.mem_singleton] at hmem
            rcases hmem with rfl | rfl | rfl
            · exact fetch_once_head _ _ _
            · exact fetch_once_head _ _ _
            · exact fetch_once_head _ _ _
          · intro e' he' hre'
            injection he' with h2
            subst h2
            rw [hr] at hre'
            exact Bool.noConfusion hre'
          · intro e' _ _
            rw [ha]
            simp
        · have ha : fetch_attempts get pp vid =
              [fetch_transcript_once (get 0) pp vid,
                fetch_transcript_once (get 1) pp vid] := by
            simp [fetch_attempts, h0, hr, h1, hr1]
          have hf : fetch_transcript_text get pp vid = .error e1 := by
            simp [fetch_transcript_text, h0, hr, h1, hr1]
          refine ⟨by simp [ha], by simp [ha, hf, h1], ?_, ?_, ?_, ?_⟩
          · intro a hmem
            rw [ha] at hmem
            simp only [List.dropLast_cons₂, List.dropLast_single, List.mem_cons, List.not_mem_nil, or_false, List.mem_singleton] at hmem
            subst hmem
            exact ⟨e, h0, hr⟩
          · intro a hmem
            rw [ha, List.mem_cons, List.mem_singleton] at hmem
            rcases hmem with rfl | rfl
            · exact fetch_once_head _ _ _
            · exact fetch_once_head _ _ _
          · intro e' he' hre'
            injection he' with h2
            subst h2
            rw [hr] at hre'
            exact Bool.noConfusion hre'
          · intro e' _ _
            rw [ha]
            simp
    · have ha : fetch_attempts get pp vid = [fetch_transcript_once (get 0) pp vid] := by
        simp [fetch_attempts, h0, hr]
      have hf : fetch_transcript_text get pp vid = .error e := by
        simp [fetch_transcript_text, h0, hr]
      refine ⟨by simp [ha], by simp [ha, hf, h0], by simp [ha], ?_, ?_, ?_⟩
      · intro a hmem
        rw [ha, List.mem_singleton] at hmem
        subst hmem
        exact fetch_once_head _ _ _
      · intro e' he' _
        injection he' with h2
        subst h2
        exact ⟨ha, hf⟩
      · intro e' he' hre'
        injection he' with h2
        subst h2
        rw [hre'] at hr
        exact absurd rfl hr

/-- Transport for the C1 witness: the first guessed endpoint already answers
with a transcript. -/
def c1get : String → HResp := fun u =>
  if u = api1 "v" then .resp 200 "" (some (.obj [("transcript", .str "hello")]))
  else .netErr

/-- Witness for C1: with a transcript on the first endpoint, the engine returns
it after a single request and never touches the share or embed pages. -/
theorem fetch_once_priority_witness :
    (tryFetchJson c1get (api1 "v") = .ok (some "hello") ∧ ¬ ("hello" : String) = "") ∧
    (fetch_transcript_once c1get (fun _ => none) "v" = (.ok "hello", [api1 "v"]) ∧
      ¬ shareUrl "v" ∈ (fetch_transcript_once c1get (fun _ => none) "v").2 ∧
      ¬ embedUrl "v" ∈ (fetch_transcript_once c1get (fun _ => none) "v").2) :=
  ⟨⟨rfl, by decide⟩,
    (fetch_once_priority c1get (fun _ => none) "v").2.2.1 "hello" rfl (by decide)⟩

/-- Transport for the C2 witness: the first endpoint replies with a caption list
whose item is a bare number, which raises `AttributeError` in the heuristics. -/
def c2get : Nat → String → HResp := fun _ u =>
  if u = api1 "v" then .resp 200 "" (some (.obj [("captions", .arr [.num 5])]))
  else .netErr

/-- Witness for C2: a non-retryable `AttributeError` ends the discovery after a
single attempt and propagates. -/
theorem fetch_retry_spec_witness :
    ((fetch_transcript_once (c2get 0) (fun _ => none) "v").1 = .error .attrErr ∧
      retryable .attrErr = false) ∧
    (fetch_attempts c2get (fun _ => none) "v" =
        [fetch_transcript_once (c2get 0) (fun _ => none) "v"] ∧
      fetch_transcript_text c2get (fun _ => none) "v" = .error .attrErr) :=
  ⟨⟨rfl, rfl⟩,
    (fetch_retry_spec c2get (fun _ => none) "v").2.2.2.2.1 .attrErr rfl rfl⟩

/-- C3 (amended): on a guessed endpoint, HTTP 404 is treated as try-next, and so
is every other failure: a network error, any other HTTP error status 400-599
(`raise_for_status` raises HTTPError, which the surrounding
`except (RequestException, ValueError)` swallows), and a JSON parse failure all
make the helper return none, moving the engine to the next endpoint; nothing
surfaces as a failure of the discovery call. -/
theorem tryFetchJson_swallows (get1 : String → HResp) (url : String) :
    (get1 url = .netErr → tryFetchJson get1 url = .ok none) ∧
    (∀ st txt js, get1 url = .resp st txt js → 400 ≤ st → st < 600 →
      tryFetchJson get1 url = .ok none) ∧
    (∀ st txt, get1 url = .resp st txt none → tryFetchJson get1 url = .ok none) := by
  refine ⟨?_, ?_, ?_⟩
  · intro h
    unfold tryFetchJson
    rw [h]
  · intro st txt js h h4 h6
    cases js with
    | none =>
      unfold tryFetchJson
      rw [h]
      show (if st = 404 then (Except.ok none : Except PyExc (Option String))
        else if 400 ≤ st ∧ st < 600 then Except.ok none
        else Except.ok none) = Except.ok none
      by_cases h404 : st = 404
      · rw [if_pos h404]
      · rw [if_neg h404, if_pos ⟨h4, h6⟩]
    | some data =>
      unfold tryFetchJson
      rw [h]
      show (if st = 404 then (Except.ok none : Except PyExc (Option String))
        else if 400 ≤ st ∧ st < 600 then Except.ok none
        else jsonHeuristics data) = Except.ok none
      by_cases h404 : st = 404
      · rw [if_pos h404]
      · rw [if_neg h404, if_pos ⟨h4, h6⟩]
  · intro st txt h
    unfold tryFetchJson
    rw [h]
    show (if st = 404 then (Except.ok none : Except PyExc (Option String))
      else if 400 ≤ st ∧ st < 600 then Except.ok none
      else
        match (none : Option Json) with
        | none => Except.ok none
        | some data => jsonHeuristics data) = Except.ok none
    by_cases h404 : st = 404
    · rw [if_pos h404]
    · rw [if_neg h404]
      by_cases herr : 400 ≤ st ∧ st < 600
      · rw [if_pos herr]
      · rw [if_neg herr]

/-- Witness for the amended C3 at a concrete 500 response. -/
theorem tryFetchJson_swallows_witness :
    ((fun _ : String => HResp.resp 500 "" none) "u" = HResp.resp 500 "" none ∧
      400 ≤ 500 ∧ 500 < 600) ∧
    tryFetchJson (fun _ => HResp.resp 500 "" none) "u" = .ok none :=
  ⟨⟨rfl, by decide, by decide⟩,
    (tryFetchJson_swallows (fun _ => HResp.resp 500 "" none) "u").2.1 500 "" none rfl
      (by decide) (by decide)⟩

/-- Transport for the C3 counterexample: endpoint 1 answers 500, endpoint 2 has
a valid caption payload. -/
def c3get : String → HResp := fun u =>
  if u = api1 "v" then .resp 500 "" none
  else if u = api2 "v" then
    .resp 200 ""
      (some (.obj [("captions",
        .arr [.obj [("text", .str "hello")], .obj [("caption", .str "world")]])]))
  else .netErr

/-- C3 counterexample: a non-404 HTTP error (500) on the first guessed endpoint
does not surface as a retryable failure of the discovery call — it is silently
skipped (the helper returns none) and the engine succeeds on endpoint 2. -/
theorem c3_counterexample :
    tryFetchJson c3get (api1 "v") = .ok none ∧
    fetch_transcript_once c3get (fun _ => none) "v" =
      (.ok "hello\nworld", [api1 "v", api2 "v"]) :=
  ⟨rfl, rfl⟩

/-- C4 (amended): when the three guessed endpoints yield nothing and the share
page answers 401, 403 or 404, `_get` raises the unavailable `LoomError`; the
pass aborts — the embed page is not requested in that pass — and the error is
retryable at the discovery level, so the whole strategy sequence is retried
from strategy 1 before the error surfaces. -/
theorem share_unavailable_aborts (get1 : String → HResp) (pp : String → Option String)
    (vid : String) (st : Nat) (txt : String) (js : Option Json)
    (h1 : apiSkip get1 (api1 vid) = true) (h2 : apiSkip get1 (api2 vid) = true)
    (h3 : apiSkip get1 (api3 vid) = true)
    (h4 : get1 (shareUrl vid) = .resp st txt js)
    (h5 : st = 401 ∨ st = 403 ∨ st = 404) :
    fetch_transcript_once get1 pp vid =
      (.error (.loomErr ("Unavailable: " ++ toString st)),
        [api1 vid, api2 vid, api3 vid, shareUrl vid]) ∧
    ¬ embedUrl vid ∈ (fetch_transcript_once get1 pp vid).2 ∧
    retryable (.loomErr ("Unavailable: " ++ toString st)) = true := by
  obtain ⟨o1, ho1, hn1⟩ := apiSkip_elim h1
  obtain ⟨o2, ho2, hn2⟩ := apiSkip_elim h2
  obtain ⟨o3, ho3, hn3⟩ := apiSkip_elim h3
  have hget : loomGet get1 (shareUrl vid) =
      .error (.loomErr ("Unavailable: " ++ toString st)) := by
    unfold loomGet
    rw [h4]
    show (if st = 401 ∨ st = 403 ∨ st = 404 then
        (Except.error (PyExc.loomErr ("Unavailable: " ++ toString st)) :
          Except PyExc String)
      else if 400 ≤ st ∧ st < 600 then Except.error PyExc.reqExc
      else Except.ok txt) = _
    rw [if_pos h5]
  have hres : fetch_transcript_once get1 pp vid =
      (.error (.loomErr ("Unavailable: " ++ toString st)),
        [api1 vid, api2 vid, api3 vid, shareUrl vid]) := by
    unfold fetch_transcript_once
    rw [ho1]
    simp only [hn1, ho2, hn2, ho3, hn3, hget]
  refine ⟨hres, ?_, rfl⟩
  rw [hres]
  simp [embed_ne_api1 vid, embed_ne_api2 vid, embed_ne_api3 vid, embed_ne_share vid]

/-- Transport for the C4 witness: all endpoints 404, share page 403. -/
def c4wget : String → HResp := fun u =>
  if u = shareUrl "v" then .resp 403 "" none else .resp 404 "" none

/-- Witness for the amended C4 at a concrete 403 share page. -/
theorem share_unavailable_aborts_witness :
    (apiSkip c4wget (api1 "v") = true ∧ apiSkip c4wget (api2 "v") = true ∧
      apiSkip c4wget (api3 "v") = true ∧ c4wget (shareUrl "v") = .resp 403 "" none ∧
      (403 = 401 ∨ 403 = 403 ∨ 403 = 404)) ∧
    (fetch_transcript_once c4wget (fun _ => none) "v" =
        (.error (.loomErr ("Unavailable: " ++ toString 403)),
          [api1 "v", api2 "v", api3 "v", shareUrl "v"]) ∧
      ¬ embedUrl "v" ∈ (fetch_transcript_once c4wget (fun _ => none) "v").2 ∧
      retryable (.loomErr ("Unavailable: " ++ toString 403)) = true) :=
  ⟨⟨by decide, by decide, by decide, rfl, by decide⟩,
    share_unavailable_aborts c4wget (fun _ => none) "v" 403 "" none (by decide)
      (by decide) (by decide) rfl (by decide)⟩

/-- Transport for the C4 counterexample: endpoints 404, share page 403, and an
embed page whose HTML would parse to a long transcript. -/
def c4get : String → HResp := fun u =>
  if u = shareUrl "v" then .resp 403 "page" none
  else if u = embedUrl "v" then .resp 200 "goodhtml" none
  else .resp 404 "" none

def c4pp : String → Option String := fun h =>
  if h = "goodhtml" then some "the full transcript text recovered from the embed page"
  else none

/-- C4 counterexample: a 403 on the share page does not fall through to the
embed strategy in the same pass — the pass (and, the error being retried with
an identical transport, the whole discovery) fails with the unavailable error
even though the embed page would have yielded a transcript. -/
theorem c4_counterexample :
    fetch_transcript_once c4get c4pp "v" =
      (.error (.loomErr "Unavailable: 403"),
        [api1 "v", api2 "v", api3 "v", shareUrl "v"]) ∧
    c4pp "goodhtml" = some "the full transcript text recovered from the embed page" ∧
    fetch_transcript_text (fun _ => c4get) c4pp "v" = .error (.loomErr "Unavailable: 403") :=
  ⟨rfl, rfl, rfl⟩

end LoomScraper
